import Mathlib

/-!
# Verification of the rv6 kernel core (shallow embedding)

This file shallowly embeds the core data structures and operations of the
rv6 kernel (`kernel-rs`): the `StaticRefCell` borrow-counted cell, the
`ArrayArena`/`MruArena` resource pools, the pipe ring, the process table
(`fork`/`wait`), the block-bitmap allocator (`balloc`/`bfree`), and the
remote-lock/lock-protected cells.  Machine integers are modelled as `Nat`
with explicit `% 2^w` where the source wraps; fallible code returns
`Option`/`Except`; panics are modelled as `none`/`error` outcomes.
-/

namespace Rv6

/-! ## StaticRefCell (src/static_refcell.rs)

The cell's state is its `refcnt : Cell<usize>` counter; `usize::MAX` is the
mutable-borrow sentinel.  Each operation is a function from the counter to
the resulting counter (plus a success indicator where the source is
fallible). -/

/-- `BORROWED_MUT: usize = usize::MAX` on 64-bit RISC-V. -/
def BORROWED_MUT : Nat := 2 ^ 64 - 1

/-- `StaticRefCell::try_borrow`: succeeds unless the counter is
`BORROWED_MUT - 1` or `BORROWED_MUT`; on success increments the counter.
Returns the new counter value. -/
def tryBorrow (cnt : Nat) : Option Nat :=
  if cnt = BORROWED_MUT - 1 ∨ cnt = BORROWED_MUT then none
  else some (cnt + 1)

/-- `StaticRefCell::try_borrow_mut`: succeeds iff not borrowed
(`refcnt == 0`); on success sets the counter to `BORROWED_MUT`. -/
def tryBorrowMut (cnt : Nat) : Option Nat :=
  if cnt ≠ 0 then none
  else some BORROWED_MUT

/-- `Drop for Ref`: decrements the counter. -/
def refDrop (cnt : Nat) : Nat := cnt - 1

/-- `TryFrom<Ref<T>> for RefMut<T>`: if the counter reads exactly 1, the
`Ref` is dropped and the counter set to `BORROWED_MUT` (success).
Otherwise `Err(())` is returned; the `Ref` passed by value is dropped when
the function returns, so the counter is decremented.  The result is
(success flag, new counter). -/
def refMutTryFromRef (cnt : Nat) : Bool × Nat :=
  if cnt = 1 then (true, BORROWED_MUT)
  else (false, refDrop cnt)

/-- `From<RefMut<T>> for Ref<T>`: drops the `RefMut` (counter := 0) and
then writes 1.  The resulting counter is always 1. -/
def refFromRefMut (_cnt : Nat) : Nat := 1

/-- `Drop for StaticRefCell`: panics iff `is_borrowed()`, i.e. the counter
is nonzero.  `true` means the drop panics. -/
def cellDropPanics (cnt : Nat) : Bool := cnt ≠ 0

/-! ## Pipe (src/pipe.rs)

`PipeInner` holds a 512-byte ring plus two `u32` cursors.  The cursors wrap
in 32-bit arithmetic (`wrapping_add`); we keep them as `Nat` below `2^32`
and apply `% 2^32` where the source wraps.  The ring contents are a
function from array index to byte.  User-memory `copy_in` is modelled as a
partial source `src : Nat → Option Nat` (byte at offset `i` of the user
buffer, `none` = page-fault), and `copy_out` as a success predicate
`dst : Nat → Bool` on destination offsets; `try_read` additionally returns
the list of bytes it delivered. -/

/-- `PIPESIZE`. -/
def PIPESIZE : Nat := 512

/-- `u32` modulus for the wrapping cursor arithmetic (`2 ^ 32`). -/
def W32 : Nat := 4294967296

/-- The state of `PipeInner`. -/
structure PipeInner where
  data : Nat → Nat
  nread : Nat
  nwrite : Nat
  readopen : Bool
  writeopen : Bool

/-- `PipeError`. -/
inductive PipeError where
  | waitForIo
  | invalidStatus
  | invalidCopyin (i : Nat)
deriving DecidableEq

/-- The `for i in 0..n` loop body of `PipeInner::try_write`: stops with
`Ok(i)` when the ring is full (`nwrite == nread.wrapping_add(PIPESIZE)`),
fails with `InvalidCopyin(i)` when `copy_in` fails, otherwise stores the
byte at `nwrite % PIPESIZE` and advances `nwrite` (wrapping). -/
def tryWriteGo (src : Nat → Option Nat) (p : PipeInner) (i : Nat) :
    Nat → (Except PipeError Nat) × PipeInner
  | 0 => (.ok i, p)
  | rem + 1 =>
    if p.nwrite = (p.nread + PIPESIZE) % W32 then
      (.ok i, p)
    else
      match src i with
      | none => (.error (.invalidCopyin i), p)
      | some ch =>
          tryWriteGo src
            { p with
              data := fun j => if j = p.nwrite % PIPESIZE then ch else p.data j
              nwrite := (p.nwrite + 1) % W32 }
            (i + 1) rem

/-- `PipeInner::try_write`: fails with `InvalidStatus` if the read end is
closed or the caller is killed, otherwise runs the copy loop. -/
def tryWrite (killed : Bool) (src : Nat → Option Nat) (p : PipeInner) (n : Nat) :
    (Except PipeError Nat) × PipeInner :=
  if ¬p.readopen ∨ killed then (.error .invalidStatus, p)
  else tryWriteGo src p 0 n

/-- The `for i in 0..n` loop body of `PipeInner::try_read`: stops with
`Ok(i)` when the ring is empty, otherwise takes the byte at
`nread % PIPESIZE`, advances `nread` (wrapping), and delivers the byte via
`copy_out` (stopping with `Ok(i)` when the copy fails — the byte is
consumed but not delivered).  Also returns the delivered bytes. -/
def tryReadGo (dst : Nat → Bool) (p : PipeInner) (out : List Nat) (i : Nat) :
    Nat → (Except PipeError Nat) × PipeInner × List Nat
  | 0 => (.ok i, p, out)
  | rem + 1 =>
    if p.nread = p.nwrite then
      (.ok i, p, out)
    else
      let ch := p.data (p.nread % PIPESIZE)
      let p' := { p with nread := (p.nread + 1) % W32 }
      if dst i then
        tryReadGo dst p' (out ++ [ch]) (i + 1) rem
      else
        (.ok i, p', out)

/-- `PipeInner::try_read`: if the ring is empty and the write end is still
open, fails with `InvalidStatus` when killed and with `WaitForIO` (the
sleep signal) otherwise; else runs the copy loop. -/
def tryRead (killed : Bool) (dst : Nat → Bool) (p : PipeInner) (n : Nat) :
    (Except PipeError Nat) × PipeInner × List Nat :=
  if p.nread = p.nwrite ∧ p.writeopen then
    if killed then (.error .invalidStatus, p, [])
    else (.error .waitForIo, p, [])
  else tryReadGo dst p [] 0 n

/-- The outcome of one iteration of the `loop` in `Pipe::write`: either
the call returns (`ret`), or the writer goes to sleep on the
`write_waitchannel` with the partial count and pipe state it will resume
from (`sleep`). -/
inductive WriteIterRes where
  | ret (r : Except Unit Nat)
  | sleep (written : Nat) (p : PipeInner)

/-- One iteration of the `loop` in `Pipe::write`, starting with `written`
bytes already transferred: calls `try_write(addr + written, n - written)`
(so `copy_in` offsets are shifted by `written`); on `Ok(r)` sleeps if
`written + r < n` and returns `Ok(written + r)` otherwise; on
`InvalidCopyin(i)` returns `Ok(written + i)`; on `InvalidStatus` returns
`Err(())`. -/
def writeIter (killed : Bool) (src : Nat → Option Nat) (p : PipeInner)
    (n written : Nat) : WriteIterRes :=
  match tryWrite killed (fun i => src (written + i)) p (n - written) with
  | (.ok r, p') =>
      if written + r < n then .sleep (written + r) p'
      else .ret (.ok (written + r))
  | (.error (.invalidCopyin i), _) => .ret (.ok (written + i))
  | (.error _, _) => .ret (.error ())

/-- The outcome of one iteration of the `loop` in `Pipe::read`: on
`Ok(r)` the call returns `Ok(r)`; on `WaitForIO` the reader sleeps on the
`read_waitchannel`; on any other error the call returns `Err(())`. -/
inductive ReadIterRes where
  | ret (r : Except Unit Nat) (out : List Nat)
  | sleep (p : PipeInner)

/-- One iteration of the `loop` in `Pipe::read`. -/
def readIter (killed : Bool) (dst : Nat → Bool) (p : PipeInner) (n : Nat) :
    ReadIterRes :=
  match tryRead killed dst p n with
  | (.ok r, _, out) => .ret (.ok r) out
  | (.error .waitForIo, _, _) => .sleep p
  | (.error _, _, _) => .ret (.error ()) []

/-- Recognizer for the sleeping outcome of a `Pipe::write` iteration. -/
def WriteIterRes.isSleep : WriteIterRes → Bool
  | .sleep _ _ => true
  | .ret _ => false

/-- Number of unread bytes in the ring, `nwrite.wrapping_sub(nread)` in
32-bit wrapping arithmetic. -/
def unread (p : PipeInner) : Nat := (p.nwrite + (W32 - p.nread % W32)) % W32

/-- The pipe-ring invariant: both cursors are in-range `u32` values and
the wrapping distance between them is at most `PIPESIZE`. -/
def PipeInv (p : PipeInner) : Prop :=
  p.nread < W32 ∧ p.nwrite < W32 ∧ unread p ≤ PIPESIZE

/-- The abstract FIFO contents of the ring: the bytes at array indices
`(nread + k) % PIPESIZE` for `k < unread p`, oldest first. -/
def queue (p : PipeInner) : List Nat :=
  (List.range (unread p)).map fun k => p.data ((p.nread + k) % PIPESIZE)

/-- The initial `PipeInner` built by `AllocatedPipe::alloc`: zeroed ring,
both cursors 0, both ends open. -/
def pipeInit : PipeInner :=
  { data := fun _ => 0, nread := 0, nwrite := 0, readopen := true,
    writeopen := true }

/-! ## Resource arenas (src/arena.rs)

An arena slot is a pair `(refcnt, payload)`.  For `ArrayArena` the slot
list is in index order; its refcount is the counter of the slot's
`StaticRefCell`.  For `MruArena` the slot list is the intrusive list in
iteration order, front (most recently used) first; its refcount is the
plain `refcnt: usize` field.

Modelled from the spec: the intrusive list (`src/list.rs` is not part of
the sources) — `push_front` prepends, `push_back` appends, `remove`
deletes the node, `iter` visits front-to-back and `iter().rev()`
back-to-front, as §4.C/§4.D of the specification describe. -/

/-- Result of the slot scan inside `find_or_alloc_handle`: a matching slot
index, a remembered free slot index, or nothing. -/
inductive ScanRes where
  | found (i : Nat)
  | avail (i : Nat)
  | nores
deriving DecidableEq

/-- First list position satisfying `P` (`none` if none does). -/
def findIdxP {T : Type} (P : Nat × T → Bool) : List (Nat × T) → Option Nat
  | [] => none
  | e :: rest =>
    if P e then some 0
    else (findIdxP P rest).map (· + 1)

/-- Last list position satisfying `P` (`none` if none does). -/
def lastIdxP {T : Type} (P : Nat × T → Bool) : List (Nat × T) → Option Nat
  | [] => none
  | e :: rest =>
    match lastIdxP P rest with
    | some j => some (j + 1)
    | none => if P e then some 0 else none

/-- A slot `ArrayArena`'s scan can match: borrowed (cell counter nonzero
and not at a sentinel value, so `try_borrow` succeeds) with a payload
satisfying `c`. -/
def arrB {T : Type} (c : T → Bool) (e : Nat × T) : Bool :=
  ¬e.1 = 0 ∧ ¬(e.1 = BORROWED_MUT - 1 ∨ e.1 = BORROWED_MUT) ∧ c e.2

/-- A free slot: refcount 0. -/
def slotFree {T : Type} (e : Nat × T) : Bool := e.1 = 0

/-- Increment the refcount of slot `i` (a matching borrow: the payload is
untouched). -/
def incRef {T : Type} : List (Nat × T) → Nat → List (Nat × T)
  | [], _ => []
  | (r, d) :: rest, 0 => (r + 1, d) :: rest
  | e :: rest, i + 1 => e :: incRef rest i

/-- Allocate slot `i`: run the initializer on its payload and set the
refcount to 1 (for `ArrayArena` this is `n(&mut rm)` followed by
`rm.into()`, which writes 1 to the cell's counter; for `MruArena` it is
`entry.refcnt = 1; n(&mut entry.data)`). -/
def initAt {T : Type} (nf : T → T) : List (Nat × T) → Nat → List (Nat × T)
  | [], _ => []
  | (_, d) :: rest, 0 => (1, nf d) :: rest
  | e :: rest, i + 1 => e :: initAt nf rest i

/-- The scan loop of `ArrayArena`'s `find_or_alloc_handle`: for each
entry, `try_borrow_mut` succeeds iff the cell counter is 0, in which case
the slot is remembered as `empty` only if none was remembered yet;
otherwise the slot is matched via `try_borrow` (which fails on the
sentinel counters) and `c`; the first match wins.  `i` is the index of the
head of the remaining list, `e` the remembered free slot. -/
def arrayScan {T : Type} (c : T → Bool) :
    List (Nat × T) → Nat → Option Nat → ScanRes
  | [], _, none => .nores
  | [], _, some j => .avail j
  | (r, d) :: rest, i, e =>
    if r = 0 then
      arrayScan c rest (i + 1) (if e = none then some i else e)
    else if (r = BORROWED_MUT - 1 ∨ r = BORROWED_MUT) then
      arrayScan c rest (i + 1) e
    else if c d then .found i
    else arrayScan c rest (i + 1) e

/-- `find_or_alloc_handle` for `Spinlock<ArrayArena<T, CAPACITY>>`:
returns the index of the returned slot and the new slot states. -/
def arrayFindOrAlloc {T : Type} (c : T → Bool) (nf : T → T)
    (entries : List (Nat × T)) : Option (Nat × List (Nat × T)) :=
  match arrayScan c entries 0 none with
  | .found i => some (i, incRef entries i)
  | .avail i => some (i, initAt nf entries i)
  | .nores => none

/-- `alloc_handle` for `Spinlock<ArrayArena<T, CAPACITY>>`: take the first
slot whose `try_borrow_mut` succeeds (counter 0), initialize it. -/
def arrayAlloc {T : Type} (nf : T → T) :
    List (Nat × T) → Option (Nat × List (Nat × T)) :=
  go 0
where
  /-- index-carrying scan -/
  go (i : Nat) : List (Nat × T) → Option (Nat × List (Nat × T))
    | [] => none
    | (r, d) :: rest =>
      if r = 0 then some (i, (1, nf d) :: rest)
      else ((go (i + 1) rest).map fun (j, rest') => (j, (r, d) :: rest'))

/-- The scan loop of `MruArena`'s `find_or_alloc_handle`, over the
intrusive list front-to-back: a slot whose payload matches `c` wins
immediately (its refcount may be 0: a warm re-hit); otherwise a slot with
refcount 0 overwrites the remembered `empty` slot, so `empty` ends at the
free slot closest to the back. -/
def mruScan {T : Type} (c : T → Bool) :
    List (Nat × T) → Nat → Option Nat → ScanRes
  | [], _, none => .nores
  | [], _, some j => .avail j
  | (r, d) :: rest, i, e =>
    if c d then .found i
    else if r = 0 then mruScan c rest (i + 1) (some i)
    else mruScan c rest (i + 1) e

/-- `find_or_alloc_handle` for `Spinlock<MruArena<T, CAPACITY>>`:
returns the position (in list order, front first) of the returned slot and
the new slot states.  The list order itself is unchanged by this call. -/
def mruFindOrAlloc {T : Type} (c : T → Bool) (nf : T → T)
    (entries : List (Nat × T)) : Option (Nat × List (Nat × T)) :=
  match mruScan c entries 0 none with
  | .found i => some (i, incRef entries i)
  | .avail i => some (i, initAt nf entries i)
  | .nores => none

/-- The reverse scan of `MruArena`'s `alloc_handle`
(`iter_unchecked().rev()`): the first free slot from the back, i.e. the
last list position with refcount 0. -/
def lastFree {T : Type} : List (Nat × T) → Option Nat :=
  lastIdxP slotFree

/-- `alloc_handle` for `Spinlock<MruArena<T, CAPACITY>>`. -/
def mruAlloc {T : Type} (nf : T → T) (entries : List (Nat × T)) :
    Option (Nat × List (Nat × T)) :=
  (lastFree entries).map fun i => (i, initAt nf entries i)

/-- `dup` for `Spinlock<MruArena<T, CAPACITY>>`: increment the refcount of
the handle's slot. -/
def mruDup {T : Type} (entries : List (Nat × T)) (i : Nat) :
    List (Nat × T) :=
  incRef entries i

/-- `dealloc` for `Spinlock<MruArena<T, CAPACITY>>`, on the handle to the
slot at list position `i`: if the refcount is 1, finalize the payload;
decrement the refcount; if it reached 0, remove the entry from the list
and `push_back` it (append it at the back). -/
def mruDealloc {T : Type} (fin : T → T) (entries : List (Nat × T))
    (i : Nat) : List (Nat × T) :=
  match entries.get? i with
  | none => entries
  | some (r, d) =>
    let d' := if r = 1 then fin d else d
    let r' := r - 1
    if r' = 0 then entries.eraseIdx i ++ [(r', d')]
    else entries.set i (r', d')

/-- First slot position matching as `ArrayArena`'s scan matches. -/
def arrayMatchIdx {T : Type} (c : T → Bool) : List (Nat × T) → Option Nat :=
  findIdxP (arrB c)

/-- First slot position with refcount 0 (the slot `ArrayArena`
allocates). -/
def firstFree {T : Type} : List (Nat × T) → Option Nat :=
  findIdxP slotFree

/-- First slot position whose payload satisfies `c` (what `MruArena`'s
scan matches, regardless of refcount). -/
def mruMatchIdx {T : Type} (c : T → Bool) : List (Nat × T) → Option Nat :=
  findIdxP fun e => c e.2

/-! ## Block allocator (src/fs/ufs/mod.rs: `UfsTx::balloc`/`bfree`/`bzero`)

The state visible to these operations is the free bitmap and the data
blocks of one device (rv6 runs with a single disk device; the `dev`
argument selects it and is the same for all calls in the claim).  The
bitmap is kept at bit granularity, `bitmap b = true` meaning block `b` is
marked in use — on disk the bit lives at byte `(b % BPB)/8`, mask
`1 << (b % BPB % 8)` of bitmap block `bblock(b)`; the byte packing is a
bijection, the scan below visits exactly the bits the source's double loop
visits and in the same order.  Block contents are `data b : Nat → Nat`
(byte index to byte).  A panic is modelled as `none`. -/

/-- `BSIZE`. -/
def BSIZE : Nat := 1024

/-- `BPB`: bitmap bits per block. -/
def BPB : Nat := BSIZE * 8

/-- The disk state seen by `balloc`/`bfree`. -/
structure Disk where
  bitmap : Nat → Bool
  data : Nat → Nat → Nat

/-- `UfsTx::bzero`: zero the contents of block `bno` (the log write of the
zeroed buffer). -/
def bzero (d : Disk) (bno : Nat) : Disk :=
  { d with data := fun b => if b = bno then (fun _ => 0) else d.data b }

/-- The inner `for bi in 0..cnt` loop of `balloc` over bitmap block
`bblock(b)`: the first clear bit among blocks `b + lo, …, b + cnt - 1`. -/
def ballocInner (bm : Nat → Bool) (b : Nat) (lo cnt : Nat) : Option Nat :=
  if _h : lo < cnt then
    if bm (b + lo) = false then some (b + lo)
    else ballocInner bm b (lo + 1) cnt
  else none
  termination_by cnt - lo

/-- The outer `range_step(0, size, BPB)` loop of `balloc`: scan each
bitmap block's bits, capped at `min BPB (size - b)`. -/
def ballocOuter (bm : Nat → Bool) (size b : Nat) : Option Nat :=
  if _h : b < size then
    match ballocInner bm b 0 (min BPB (size - b)) with
    | some j => some j
    | none => ballocOuter bm size (b + BPB)
  else none
  termination_by size - b
  decreasing_by simp only [BPB, BSIZE]; omega

/-- `UfsTx::balloc`: find the first free bitmap bit, mark it in use (log
write), zero the block (`bzero`), and return the block number; panic
(`none`) when every bit is set (`"balloc: out of blocks"`). -/
def balloc (size : Nat) (d : Disk) : Option (Nat × Disk) :=
  match ballocOuter d.bitmap size 0 with
  | none => none
  | some j =>
    some (j, bzero { d with bitmap := fun b => if b = j then true else d.bitmap b } j)

/-- `UfsTx::bfree`: panic (`none`) if the bit is already clear
(`"freeing free block"`), otherwise clear it (log write). -/
def bfree (d : Disk) (b : Nat) : Option Disk :=
  if d.bitmap b = false then none
  else some { d with bitmap := fun b' => if b' = b then false else d.bitmap b' }

/-! ## Remote lock and lock-protected cells
(src/lock/remotelock.rs, src/lock/lock_protected.rs)

Raw lock instances are identified by their address; we model the address
as a `Nat` id.  A `Guard` carries the id of the lock it was obtained from.
`LockProtected` stores a reference to the lock it was created with;
`RemoteLock` stores only `PhantomData` (the borrow is a lifetime, erased
at runtime), which the model keeps as a phantom field so the claim can be
stated.  An access either panics (`error`) or yields the cell's data. -/

/-- A guard of the raw lock with identity `lockId`. -/
structure LockGuard where
  lockId : Nat
deriving DecidableEq

/-- A `LockProtected<'s, R, U, T>` cell: the borrowed lock's identity plus
the protected data. -/
structure LockProtected (T : Type) where
  lock : Nat
  data : T

/-- A `RemoteLock<'s, R, U, T>` cell: the data plus the phantom identity
of the lock it was created with (present only in `PhantomData`; the
runtime representation holds no lock reference). -/
structure RemoteLock (T : Type) where
  phantomLock : Nat
  data : T

/-- `LockProtected::get_pin_mut`: `assert!(ptr::eq(self.lock, guard.lock))`
— panics unless the guard comes from the cell's lock, then yields the
data. -/
def LockProtected.getPinMut {T : Type} (cell : LockProtected T)
    (guard : LockGuard) : Except Unit T :=
  if cell.lock = guard.lockId then .ok cell.data else .error ()

/-- `RemoteLock::get_pin_mut_unchecked`: ignores the guard (`_guard`) and
yields the data unconditionally; the guard/lock match is a safety
precondition on the caller, not a runtime check. -/
def RemoteLock.getPinMutUnchecked {T : Type} (cell : RemoteLock T)
    (_guard : LockGuard) : Except Unit T :=
  .ok cell.data

/-! ## Process system (src/proc/procs.rs)

Processes are slots of a fixed pool, identified by their index.  A slot's
`info` part (state, pid, killed, xstate) is guarded by the slot's own
spinlock, its `parent` field by the global wait-lock (a `RemoteLock` on
the wait-lock, accessed through branded `WaitGuard`s).  The trap frame
keeps `a0` (the user-visible system-call return value) explicit and
abstracts the remaining registers into one field.  Handles held in the
open-file table and the cwd are reference counted in the file/inode
tables, modelled as refcount maps; `file.clone()` / `cwd.clone()`
increment the count of the cloned id.  Kernel pages obtained from the
allocator are tracked by a live-page count: the trap-frame page counts 1,
the cloned user memory `memPages` pages.

Modelled from the spec (the `Proc`/`ProcGuard` internals of
`src/proc/mod.rs` and the wait-channel code are not among the sources):
`ProcGuard::clear` resets a reaped ZOMBIE slot to UNUSED and frees its
trap-frame page and user memory; `WaitChannel::sleep(guard)` puts the
caller to sleep on the channel and releases the presented guard — in
`wait` that guard is the wait-lock's — re-acquiring it on wakeup;
`Proc::killed()` reads the kill-requested flag. -/

/-- `Procstate`. -/
inductive Procstate where
  | unused | used | sleeping | runnable | running | zombie
deriving DecidableEq

/-- The saved user trap frame: `a0` explicit, all other registers
abstracted into `rest`. -/
structure TrapFrame where
  a0 : Nat
  rest : Nat
deriving DecidableEq

/-- One process-table slot. -/
structure Proc where
  state : Procstate
  pid : Nat
  killed : Bool
  xstate : Int
  tf : TrapFrame
  memPages : Nat
  openFiles : List (Option Nat)
  cwd : Nat
  name : Nat
  parent : Option Nat

instance : Inhabited Proc :=
  ⟨⟨.unused, 0, false, 0, ⟨0, 0⟩, 0, [], 0, 0, none⟩⟩

/-- The process system state: the pool, the monotone pid counter, the
file-table and inode-table refcounts, and the number of live kernel
pages. -/
structure PSys where
  pool : List Proc
  nextpid : Nat
  fileRef : Nat → Nat
  inodeRef : Nat → Nat
  livePages : Nat

/-- Lock events observable during `fork`: acquire/release of a slot's
info lock, acquire/release of the wait-lock, the write of a slot's parent
pointer, and the RUNNABLE transition. -/
inductive Ev where
  | acqInfo (i : Nat)
  | relInfo (i : Nat)
  | acqWait
  | relWait
  | writeParent (i : Nat)
  | setRunnable (i : Nat)
deriving DecidableEq

/-- The scan loop of `ProcsRef::alloc`: lock each slot in index order; on
the first UNUSED slot install the trap-frame page and memory, assign the
next pid, set the state to USED and return with the slot's lock held
(trace ends in an unmatched `acqInfo`); other slots are unlocked again. -/
def allocGo (np : Nat) (page : TrapFrame) (mem : Nat) :
    List Proc → Nat → Option (Nat × List Proc × List Ev)
  | [], _ => none
  | p :: rest, i =>
    if p.state = .unused then
      some (i,
        { p with tf := page, memPages := mem, pid := np, state := .used } :: rest,
        [.acqInfo i])
    else
      (allocGo np page mem rest (i + 1)).map fun (j, rest', tr) =>
        (j, p :: rest', .acqInfo i :: .relInfo i :: tr)

/-- `ProcsRef::alloc`: on success the pid counter advances
(`allocpid`) and the found slot's lock is still held; if no slot is
UNUSED, the trap-frame page and the memory are freed and `Err` is
returned. -/
def procsAlloc (page : TrapFrame) (mem : Nat) (s : PSys) :
    Except Unit Nat × PSys × List Ev :=
  match allocGo s.nextpid page mem s.pool 0 with
  | some (j, pool', tr) =>
      (.ok j, { s with pool := pool', nextpid := s.nextpid + 1 }, tr)
  | none =>
      (.error (), { s with livePages := s.livePages - (1 + mem) },
        (List.range s.pool.length).flatMap fun i => [Ev.acqInfo i, Ev.relInfo i])

/-- The `izip!` loop of `fork` over the open-file tables: entries that are
`Some` in the parent are cloned into the child; `None` entries leave the
child's slot untouched. -/
def copyOpenFiles : List (Option Nat) → List (Option Nat) → List (Option Nat)
  | [], _ => []
  | _, [] => []
  | nf :: nfs, f :: fs =>
    (match f with
     | some fid => some fid
     | none => nf) :: copyOpenFiles nfs fs

/-- The refcount effect of the same loop: each `Some fid` in the parent's
table is `clone()`d, incrementing `fid`'s refcount in the file table. -/
def cloneFiles (fr : Nat → Nat) : List (Option Nat) → Nat → Nat
  | [] => fr
  | some fid :: rest =>
      cloneFiles (fun x => if x = fid then fr x + 1 else fr x) rest
  | none :: rest => cloneFiles fr rest

/-- How often file id `fid` occurs in an open-file table. -/
def countFile (fid : Nat) : List (Option Nat) → Nat
  | [] => 0
  | some g :: rest => (if g = fid then 1 else 0) + countFile fid rest
  | none :: rest => countFile fid rest

/-- `ProcsRef::fork` for the process at pool index `pIdx`.  `tfOk` is
whether the trap-frame page allocation succeeds, `page` the fresh page's
(arbitrary) contents, `memOk` whether cloning the parent's user memory
succeeds, `memSz` its page count.  Returns the result, the new state, and
the trace of lock events. -/
def fork (tfOk : Bool) (page : TrapFrame) (memOk : Bool) (memSz : Nat)
    (pIdx : Nat) (s : PSys) : Except Unit Nat × PSys × List Ev :=
  if ¬tfOk then (.error (), s, [])
  else
    let s1 := { s with livePages := s.livePages + 1 }
    if ¬memOk then (.error (), { s1 with livePages := s1.livePages - 1 }, [])
    else
      let s2 := { s1 with livePages := s1.livePages + memSz }
      let pp := s2.pool.getD pIdx default
      match procsAlloc page memSz s2 with
      | (.error _, s3, tr) => (.error (), s3, tr)
      | (.ok j, s3, tr) =>
        let child := s3.pool.getD j default
        let child :=
          { child with
            tf := { a0 := 0, rest := pp.tf.rest }
            openFiles := copyOpenFiles child.openFiles pp.openFiles
            cwd := pp.cwd
            name := pp.name
            parent := some pIdx
            state := .runnable }
        let pid := (s3.pool.getD j default).pid
        (.ok pid,
         { s3 with
           pool := s3.pool.set j child
           fileRef := cloneFiles s3.fileRef pp.openFiles
           inodeRef := fun x =>
             if x = pp.cwd then s3.inodeRef x + 1 else s3.inodeRef x },
         tr ++ [.relInfo j, .acqWait, .writeParent j, .relWait,
                .acqInfo j, .setRunnable j, .relInfo j])

/-- First pool index holding a ZOMBIE child of process `me` (the `wait`
scan returns at the first one it locks). -/
def firstZombieChild (me : Nat) : List Proc → Nat → Option Nat
  | [], _ => none
  | p :: rest, i =>
    if p.parent = some me ∧ p.state = .zombie then some i
    else firstZombieChild me rest (i + 1)

/-- Whether any slot's parent pointer designates `me` (the `havekids`
flag after a full scan). -/
def hasChild (me : Nat) (pool : List Proc) : Bool :=
  pool.any fun p => p.parent == some me

/-- Modelled from the spec: `ProcGuard::clear` (not among the sources) —
reset the reaped slot to UNUSED, dropping its identity and contents; its
trap-frame page and `memPages` user pages are freed by the caller's
accounting. -/
def clearProc (p : Proc) : Proc :=
  { state := .unused, pid := 0, killed := false, xstate := 0, tf := ⟨0, 0⟩,
    memPages := 0, openFiles := List.replicate p.openFiles.length none,
    cwd := 0, name := 0, parent := none }

/-- Outcome of one iteration of the `loop` in `ProcsRef::wait`: either
the call returns (with the exit status it copied out, if any), or the
caller sleeps on the channel `chan` — by the (spec-modelled) contract of
`WaitChannel::sleep`, releasing the wait-lock guard it presents while
asleep.  Channel identity: process `i`'s `child_waitchannel` is `i`. -/
inductive WaitRes where
  | ret (r : Except Unit Nat) (copied : Option Int)
  | sleepOn (chan : Nat)

/-- One iteration of the `loop` in `ProcsRef::wait`, called by the process
at index `me` with output address nullness `addrNull` and `copy_out`
success `copyOk`: reap the first ZOMBIE child (copying its exit status to
the user address when non-null, failing if that copy fails), else error
out when there are no children or the caller is killed, else sleep on the
caller's child-wait channel. -/
def waitStep (s : PSys) (me : Nat) (addrNull : Bool) (copyOk : Bool) :
    WaitRes × PSys :=
  match firstZombieChild me s.pool 0 with
  | some j =>
    let ch := s.pool.getD j default
    if ¬addrNull ∧ ¬copyOk then (.ret (.error ()) none, s)
    else
      (.ret (.ok ch.pid) (if addrNull then none else some ch.xstate),
       { s with
         pool := s.pool.set j (clearProc ch)
         livePages := s.livePages - (1 + ch.memPages) })
  | none =>
    if ¬hasChild me s.pool ∨ (s.pool.getD me default).killed then
      (.ret (.error ()) none, s)
    else
      (.sleepOn me, s)

/-! ## Theorems -/

/-! ### C5 — StaticRefCell borrow discipline -/

/-- C5 counterexample: the claim says a failed `Ref → RefMut` conversion
returns the `Ref` unchanged, which would leave a counter of 2 at 2.
`TryFrom<Ref<T>> for RefMut<T>` actually returns `Err(())`, consuming the
`Ref` by value, whose `Drop` decrements the counter to 1. -/
theorem refcell_promote_fail_consumes :
    refMutTryFromRef 2 = (false, 1) ∧ refMutTryFromRef 2 ≠ (false, 2) := by
  decide

/-- C5 (amended): `try_borrow_mut` succeeds exactly when the counter is 0
and sets it to the sentinel `usize::MAX`; converting a `Ref` into a
`RefMut` succeeds exactly when the counter reads 1 (otherwise the
conversion fails, the `Ref` is consumed and the counter decremented by 1);
converting a `RefMut` into a `Ref` writes 1 to the counter; dropping a
cell whose counter is nonzero panics. -/
theorem static_refcell_spec :
    ∀ cnt : Nat,
      ((tryBorrowMut cnt).isSome ↔ cnt = 0) ∧
      tryBorrowMut 0 = some BORROWED_MUT ∧
      ((refMutTryFromRef cnt).1 = true ↔ cnt = 1) ∧
      refMutTryFromRef cnt =
        (if cnt = 1 then (true, BORROWED_MUT) else (false, cnt - 1)) ∧
      refFromRefMut cnt = 1 ∧
      (cellDropPanics cnt = true ↔ cnt ≠ 0) := by
  intro cnt
  refine ⟨?_, rfl, ?_, ?_, rfl, ?_⟩
  · simp [tryBorrowMut]
  · simp only [refMutTryFromRef]
    split <;> simp_all
  · simp only [refMutTryFromRef, refDrop]
  · simp [cellDropPanics]

/-! ### C9 — remote-lock guard checking -/

/-- C9 counterexample: accessing a `RemoteLock` cell created against lock
0 while presenting a guard of lock 1 is not detected —
`RemoteLock::get_pin_mut_unchecked` performs no runtime check and yields
the data instead of panicking. -/
theorem remotelock_no_runtime_check :
    RemoteLock.getPinMutUnchecked (T := Nat) ⟨0, 7⟩ ⟨1⟩ = .ok 7 ∧
    RemoteLock.getPinMutUnchecked (T := Nat) ⟨0, 7⟩ ⟨1⟩ ≠ .error () := by
  exact ⟨rfl, by simp [RemoteLock.getPinMutUnchecked]⟩

/-- C9 (amended): `LockProtected::get_pin_mut` panics exactly when the
presented guard does not originate from the raw lock instance the cell was
created with, and yields the data exactly when it does;
`RemoteLock::get_pin_mut_unchecked` performs no runtime check — the match
is a safety precondition on the caller and the access always succeeds. -/
theorem lock_protected_guard_spec :
    ∀ (T : Type) (cell : LockProtected T) (g : LockGuard) (rc : RemoteLock T),
      (LockProtected.getPinMut cell g = .ok cell.data ↔ cell.lock = g.lockId) ∧
      (LockProtected.getPinMut cell g = .error () ↔ cell.lock ≠ g.lockId) ∧
      RemoteLock.getPinMutUnchecked rc g = .ok rc.data := by
  intro T cell g rc
  refine ⟨?_, ?_, rfl⟩ <;>
    · simp only [LockProtected.getPinMut]
      split <;> simp_all

/-! ### C8 — pipe read with closed write end and empty ring -/

/-- C8: a pipe read issued when the write end is closed and the ring is
empty returns success with count 0: `try_read` neither errors nor asks to
sleep, and the `Pipe::read` loop returns `Ok(0)` on its first
iteration. -/
theorem pipe_read_closed_empty (killed : Bool) (dst : Nat → Bool)
    (p : PipeInner) (n : Nat) (h1 : p.writeopen = false)
    (h2 : p.nread = p.nwrite) :
    tryRead killed dst p n = (.ok 0, p, []) ∧
    readIter killed dst p n = .ret (.ok 0) [] := by
  have hgo : tryReadGo dst p [] 0 n = (.ok 0, p, []) := by
    cases n with
    | zero => rfl
    | succ m => simp [tryReadGo, h2]
  have ht : tryRead killed dst p n = (.ok 0, p, []) := by
    simp [tryRead, h1, hgo]
  exact ⟨ht, by simp [readIter, ht]⟩

/-- C8 witness: a concrete empty pipe whose write end is closed. -/
theorem pipe_read_closed_empty_witness :
    tryRead false (fun _ => true) ⟨fun _ => 0, 5, 5, true, false⟩ 10 =
      (.ok 0, ⟨fun _ => 0, 5, 5, true, false⟩, []) ∧
    readIter false (fun _ => true) ⟨fun _ => 0, 5, 5, true, false⟩ 10 =
      .ret (.ok 0) [] :=
  pipe_read_closed_empty false (fun _ => true) ⟨fun _ => 0, 5, 5, true, false⟩
    10 rfl rfl

/-! ### Helper lemmas on slot lists and arena scans -/

theorem findIdxP_some_iff {T : Type} (P : Nat × T → Bool) :
    ∀ (l : List (Nat × T)) (k : Nat),
      findIdxP P l = some k ↔
        (∃ e, l[k]? = some e ∧ P e = true) ∧
          ∀ j, j < k → ∀ e, l[j]? = some e → P e = false := by
  intro l
  induction l with
  | nil => simp [findIdxP]
  | cons e rest ih =>
    intro k
    by_cases hP : P e
    · simp only [findIdxP, hP, if_pos]
      cases k with
      | zero => simp [hP]
      | succ k' =>
        simp only [List.getElem?_cons_succ]
        constructor
        · intro h; exact absurd h (by simp)
        · rintro ⟨-, hall⟩
          have := hall 0 (by omega) e (by simp)
          simp [hP] at this
    · simp only [findIdxP, hP, if_neg, Bool.not_eq_true]
      cases k with
      | zero =>
        simp only [List.getElem?_cons_zero, Option.map_eq_some']
        constructor
        · rintro ⟨k', -, h⟩; omega
        · rintro ⟨⟨e', he', hPe'⟩, -⟩
          cases he'; simp_all
      | succ k' =>
        simp only [List.getElem?_cons_succ, Option.map_eq_some']
        constructor
        · rintro ⟨k'', hk'', heq⟩
          have hk : k'' = k' := by omega
          rw [hk] at hk''
          rcases (ih k').mp hk'' with ⟨hex, hall⟩
          refine ⟨hex, ?_⟩
          intro j hj f hf
          cases j with
          | zero => simp at hf; cases hf; simpa using hP
          | succ j' =>
            simp only [List.getElem?_cons_succ] at hf
            exact hall j' (by omega) f hf
        · rintro ⟨hex, hall⟩
          refine ⟨k', ?_, rfl⟩
          refine (ih k').mpr ⟨hex, ?_⟩
          intro j hj f hf
          exact hall (j + 1) (by omega) f (by simpa using hf)

theorem findIdxP_none_iff {T : Type} (P : Nat × T → Bool) :
    ∀ l : List (Nat × T),
      findIdxP P l = none ↔
        ∀ (j : Nat) (e : Nat × T), l[j]? = some e → P e = false := by
  intro l
  induction l with
  | nil => simp [findIdxP]
  | cons e rest ih =>
    by_cases hP : P e
    · simp only [findIdxP, hP, if_pos]
      constructor
      · intro h; exact absurd h (by simp)
      · intro h
        have := h 0 e (by simp)
        simp [hP] at this
    · simp only [findIdxP, hP, if_neg, Bool.not_eq_true, Option.map_eq_none']
      rw [ih]
      constructor
      · intro h j f hf
        cases j with
        | zero => simp at hf; cases hf; simpa using hP
        | succ j' => exact h j' f (by simpa using hf)
      · intro h j f hf
        exact h (j + 1) f (by simpa using hf)

theorem lastIdxP_none_iff {T : Type} (P : Nat × T → Bool) :
    ∀ l : List (Nat × T),
      lastIdxP P l = none ↔
        ∀ (j : Nat) (e : Nat × T), l[j]? = some e → P e = false := by
  intro l
  induction l with
  | nil => simp [lastIdxP]
  | cons e rest ih =>
    simp only [lastIdxP]
    cases hrest : lastIdxP P rest with
    | some j =>
      simp only []
      constructor
      · intro h; exact absurd h (by simp)
      · intro h
        have : lastIdxP P rest = none := by
          rw [ih]
          intro j' f hf
          exact h (j' + 1) f (by simpa using hf)
        rw [this] at hrest; cases hrest
    | none =>
      by_cases hP : P e
      · simp only [hP, if_pos]
        constructor
        · intro h; exact absurd h (by simp)
        · intro h
          have := h 0 e (by simp)
          simp [hP] at this
      · simp only [hP, if_neg, Bool.not_eq_true]
        constructor
        · intro _ j f hf
          cases j with
          | zero => simp at hf; cases hf; simpa using hP
          | succ j' =>
            exact (ih.mp hrest) j' f (by simpa using hf)
        · intro _; trivial

theorem lastIdxP_some_iff {T : Type} (P : Nat × T → Bool) :
    ∀ (l : List (Nat × T)) (k : Nat),
      lastIdxP P l = some k ↔
        (∃ e, l[k]? = some e ∧ P e = true) ∧
          ∀ j, k < j → ∀ e, l[j]? = some e → P e = false := by
  intro l
  induction l with
  | nil => simp [lastIdxP]
  | cons e rest ih =>
    intro k
    simp only [lastIdxP]
    cases hrest : lastIdxP P rest with
    | some j =>
      rcases (ih j).mp hrest with ⟨⟨f, hf, hPf⟩, hall⟩
      simp only []
      constructor
      · rintro h
        cases h
        refine ⟨⟨f, by simpa using hf, hPf⟩, ?_⟩
        intro j' hj' g hg
        cases j' with
        | zero => omega
        | succ j'' =>
          exact hall j'' (by omega) g (by simpa using hg)
      · rintro ⟨⟨g, hg, hPg⟩, hall'⟩
        cases k with
        | zero =>
          have := hall' (j + 1) (by omega) f (by simpa using hf)
          simp [hPf] at this
        | succ k' =>
          have hjk : j ≤ k' := by
            by_contra hlt
            have := hall' (j + 1) (by omega) f (by simpa using hf)
            simp [hPf] at this
          have hkj : k' ≤ j := by
            by_contra hlt
            have := hall k' (by omega) g (by simpa using hg)
            simp [hPg] at this
          have : k' = j := by omega
          subst this; rfl
    | none =>
      have hnone := (lastIdxP_none_iff P rest).mp hrest
      by_cases hP : P e
      · simp only [hP, if_pos]
        cases k with
        | zero =>
          simp only [List.getElem?_cons_zero]
          constructor
          · intro _
            refine ⟨⟨e, rfl, hP⟩, ?_⟩
            intro j hj g hg
            cases j with
            | zero => omega
            | succ j' => exact hnone j' g (by simpa using hg)
          · intro _; trivial
        | succ k' =>
          simp only [List.getElem?_cons_succ]
          constructor
          · intro h; exact absurd h (by simp)
          · rintro ⟨⟨g, hg, hPg⟩, -⟩
            have := hnone k' g hg
            simp [hPg] at this
      · simp only [hP, if_neg, Bool.not_eq_true]
        constructor
        · intro h; exact absurd h (by simp)
        · rintro ⟨⟨g, hg, hPg⟩, -⟩
          cases k with
          | zero => simp at hg; cases hg; simp_all
          | succ k' =>
            have := hnone k' g (by simpa using hg)
            simp [hPg] at this

theorem incRef_get {T : Type} :
    ∀ (l : List (Nat × T)) (k j : Nat),
      (incRef l k)[j]? =
        if j = k then (l[j]?).map (fun e => (e.1 + 1, e.2)) else l[j]? := by
  intro l
  induction l with
  | nil => intro k j; simp [incRef]
  | cons hd rest ih =>
    intro k j
    obtain ⟨r, d⟩ := hd
    cases k with
    | zero =>
      cases j with
      | zero => simp [incRef]
      | succ j' => simp [incRef]
    | succ k' =>
      cases j with
      | zero => simp [incRef]
      | succ j' => simpa [incRef] using ih k' j'

theorem initAt_get {T : Type} (nf : T → T) :
    ∀ (l : List (Nat × T)) (k j : Nat),
      (initAt nf l k)[j]? =
        if j = k then (l[j]?).map (fun e => (1, nf e.2)) else l[j]? := by
  intro l
  induction l with
  | nil => intro k j; simp [initAt]
  | cons hd rest ih =>
    intro k j
    obtain ⟨r, d⟩ := hd
    cases k with
    | zero =>
      cases j with
      | zero => simp [initAt]
      | succ j' => simp [initAt]
    | succ k' =>
      cases j with
      | zero => simp [initAt]
      | succ j' => simpa [initAt] using ih k' j'

theorem arrayScan_eq {T : Type} (c : T → Bool) :
    ∀ (l : List (Nat × T)) (i : Nat) (e : Option Nat),
      arrayScan c l i e =
        match arrayMatchIdx c l, e, firstFree l with
        | some k, _, _ => .found (i + k)
        | none, some j, _ => .avail j
        | none, none, some k => .avail (i + k)
        | none, none, none => .nores := by
  intro l
  induction l with
  | nil =>
    intro i e
    cases e <;> simp [arrayScan, arrayMatchIdx, firstFree, findIdxP]
  | cons hd rest ih =>
    intro i e
    obtain ⟨r, d⟩ := hd
    by_cases hr : r = 0
    · subst hr
      have hB : arrB c (0, d) = false := by simp [arrB]
      have hF : slotFree (T := T) (0, d) = true := by simp [slotFree]
      rw [show arrayScan c ((0, d) :: rest) i e
            = arrayScan c rest (i + 1) (if e = none then some i else e) by
          simp [arrayScan]]
      rw [ih]
      simp only [arrayMatchIdx, firstFree, findIdxP, hB, hF, Bool.false_eq_true,
        if_false, if_true, cond_true, cond_false, ite_true, ite_false]
      cases hm : findIdxP (arrB c) rest with
      | some k =>
        cases e <;> simp [hm, Nat.add_assoc, Nat.add_comm, Nat.add_left_comm]
      | none =>
        cases e <;> simp [hm]
    · have hB : arrB c (r, d) = (decide ¬(r = BORROWED_MUT - 1 ∨ r = BORROWED_MUT) && c d) := by
        simp [arrB, hr]
      have hF : slotFree (T := T) (r, d) = false := by simp [slotFree, hr]
      by_cases hs : r = BORROWED_MUT - 1 ∨ r = BORROWED_MUT
      · rw [show arrayScan c ((r, d) :: rest) i e = arrayScan c rest (i + 1) e by
            simp [arrayScan, hr, hs]]
        rw [ih]
        simp only [arrayMatchIdx, firstFree, findIdxP, hB, hF, hs,
          not_true, Bool.false_and, Bool.false_eq_true, if_false,
          ite_false, decide_not]
        cases hm : findIdxP (arrB c) rest with
        | some k =>
          cases e <;>
            simp [hm, hs, Nat.add_assoc, Nat.add_comm, Nat.add_left_comm]
        | none =>
          cases hf : findIdxP (slotFree (T := T)) rest with
          | some k =>
            cases e <;>
              simp [hm, hf, hs, Nat.add_assoc, Nat.add_comm, Nat.add_left_comm]
          | none => cases e <;> simp [hm, hf, hs]
      · by_cases hc : c d
        · rw [show arrayScan c ((r, d) :: rest) i e = .found i by
              simp [arrayScan, hr, hs, hc]]
          have : arrB c (r, d) = true := by simp [arrB, hr, hs, hc]
          simp [arrayMatchIdx, findIdxP, this]
        · rw [show arrayScan c ((r, d) :: rest) i e = arrayScan c rest (i + 1) e by
              simp [arrayScan, hr, hs, hc]]
          rw [ih]
          have hB' : arrB c (r, d) = false := by simp [arrB, hr, hs, hc]
          simp only [arrayMatchIdx, firstFree, findIdxP, hB', hF,
            Bool.false_eq_true, if_false, ite_false]
          cases hm : findIdxP (arrB c) rest with
          | some k =>
            cases e <;>
              simp [hm, Nat.add_assoc, Nat.add_comm, Nat.add_left_comm]
          | none =>
            cases hf : findIdxP (slotFree (T := T)) rest with
            | some k =>
              cases e <;>
                simp [hm, hf, Nat.add_assoc, Nat.add_comm, Nat.add_left_comm]
            | none => cases e <;> simp [hm, hf]

theorem mruScan_eq {T : Type} (c : T → Bool) :
    ∀ (l : List (Nat × T)) (i : Nat) (e : Option Nat),
      mruScan c l i e =
        match mruMatchIdx c l, lastFree l, e with
        | some k, _, _ => .found (i + k)
        | none, some k, _ => .avail (i + k)
        | none, none, some j => .avail j
        | none, none, none => .nores := by
  intro l
  induction l with
  | nil =>
    intro i e
    cases e <;> simp [mruScan, mruMatchIdx, lastFree, findIdxP, lastIdxP]
  | cons hd rest ih =>
    intro i e
    obtain ⟨r, d⟩ := hd
    by_cases hc : c d
    · rw [show mruScan c ((r, d) :: rest) i e = .found i by simp [mruScan, hc]]
      simp [mruMatchIdx, findIdxP, hc]
    · by_cases hr : r = 0
      · subst hr
        rw [show mruScan c ((0, d) :: rest) i e = mruScan c rest (i + 1) (some i) by
            simp [mruScan, hc]]
        rw [ih]
        simp only [mruMatchIdx, lastFree, findIdxP, lastIdxP, hc,
          Bool.false_eq_true, if_false, ite_false]
        cases hm : findIdxP (fun e => c e.2) rest with
        | some k =>
          simp [hm, Nat.add_assoc, Nat.add_comm, Nat.add_left_comm]
        | none =>
          cases hf : lastIdxP (slotFree (T := T)) rest with
          | some k =>
            simp [hm, hf, Nat.add_assoc, Nat.add_comm, Nat.add_left_comm]
          | none => simp [hm, hf, slotFree]
      · rw [show mruScan c ((r, d) :: rest) i e = mruScan c rest (i + 1) e by
            simp [mruScan, hc, hr]]
        rw [ih]
        simp only [mruMatchIdx, lastFree, findIdxP, lastIdxP, hc,
          Bool.false_eq_true, if_false, ite_false]
        cases hm : findIdxP (fun e => c e.2) rest with
        | some k =>
          cases e <;> simp [hm, Nat.add_assoc, Nat.add_comm, Nat.add_left_comm]
        | none =>
          cases hf : lastIdxP (slotFree (T := T)) rest with
          | some k =>
            cases e <;>
              simp [hm, hf, Nat.add_assoc, Nat.add_comm, Nat.add_left_comm]
          | none => cases e <;> simp [hm, hf, slotFree, hr]

/-! ### C1 — find_or_alloc: matching wins over allocating -/

/-- C1 counterexample: in the `MruArena` flavor the matching test is
applied to every slot in list order, free slots included.  On the arena
`[(0, 5), (3, 5)]` with the key predicate `(· == 5)`, a borrowed slot
(position 1, refcount 3) matches, yet `find_or_alloc_handle` returns the
earlier free slot (position 0), re-borrowing it with refcount 1 and no
initializer run — not the borrowed slot with its refcount bumped to 4 as
the claim states. -/
theorem mru_find_matches_free_slot :
    mruFindOrAlloc (fun d => d == 5) (fun d => d + 100) [(0, 5), (3, 5)] =
      some (0, [(1, 5), (3, 5)]) ∧
    mruFindOrAlloc (fun d => d == 5) (fun d => d + 100) [(0, 5), (3, 5)] ≠
      some (1, [(0, 5), (4, 5)]) := by
  decide

/-- C1 (amended): matching wins over allocating in both arena flavors.
`ArrayArena`: if a borrowed slot (nonzero, non-sentinel cell counter)
matches `c`, the first such slot is returned with its counter incremented
and no initializer run, even when a free slot precedes it; if no borrowed
slot matches and a free slot exists, the first free slot (index order) is
initialized and returned with refcount 1; otherwise the call returns
`None`.  `MruArena`: the matching test also sees free slots (a warm
re-hit): the first slot in list order whose payload matches `c` is
returned with its refcount incremented and no initializer run; if no slot
matches and a free slot exists, the free slot closest to the back (the
least-recently-used end) is initialized and returned; otherwise `None`.
The last two conjuncts pin down the slot-state updates: a match leaves
every payload untouched and only bumps the returned slot's refcount; an
allocation runs the initializer on the returned slot only. -/
theorem arena_find_or_alloc_spec :
    ∀ (T : Type) (c : T → Bool) (nf : T → T) (l : List (Nat × T)),
      (∀ (k : Nat) (e : Nat × T), l[k]? = some e → arrB c e = true →
        (∀ (j : Nat) (e' : Nat × T), j < k → l[j]? = some e' → arrB c e' = false) →
        arrayFindOrAlloc c nf l = some (k, incRef l k)) ∧
      ((∀ (j : Nat) (e : Nat × T), l[j]? = some e → arrB c e = false) →
        ∀ (k : Nat) (e : Nat × T), l[k]? = some e → slotFree e = true →
        (∀ (j : Nat) (e' : Nat × T), j < k → l[j]? = some e' → slotFree e' = false) →
        arrayFindOrAlloc c nf l = some (k, initAt nf l k)) ∧
      ((∀ (j : Nat) (e : Nat × T), l[j]? = some e → arrB c e = false) →
        (∀ (j : Nat) (e : Nat × T), l[j]? = some e → slotFree e = false) →
        arrayFindOrAlloc c nf l = none) ∧
      (∀ (k : Nat) (e : Nat × T), l[k]? = some e → c e.2 = true →
        (∀ (j : Nat) (e' : Nat × T), j < k → l[j]? = some e' → c e'.2 = false) →
        mruFindOrAlloc c nf l = some (k, incRef l k)) ∧
      ((∀ (j : Nat) (e : Nat × T), l[j]? = some e → c e.2 = false) →
        ∀ (k : Nat) (e : Nat × T), l[k]? = some e → slotFree e = true →
        (∀ (j : Nat) (e' : Nat × T), k < j → l[j]? = some e' → slotFree e' = false) →
        mruFindOrAlloc c nf l = some (k, initAt nf l k)) ∧
      ((∀ (j : Nat) (e : Nat × T), l[j]? = some e → c e.2 = false) →
        (∀ (j : Nat) (e : Nat × T), l[j]? = some e → slotFree e = false) →
        mruFindOrAlloc c nf l = none) ∧
      (∀ k j : Nat, (incRef l k)[j]? =
        if j = k then (l[j]?).map (fun e => (e.1 + 1, e.2)) else l[j]?) ∧
      (∀ k j : Nat, (initAt nf l k)[j]? =
        if j = k then (l[j]?).map (fun e => (1, nf e.2)) else l[j]?) := by
  intro T c nf l
  refine ⟨?_, ?_, ?_, ?_, ?_, ?_, incRef_get l, initAt_get nf l⟩
  · intro k e hk hB hall
    have hm : arrayMatchIdx c l = some k :=
      (findIdxP_some_iff (arrB c) l k).mpr
        ⟨⟨e, hk, hB⟩, fun j hj e' he' => hall j e' hj he'⟩
    simp [arrayFindOrAlloc, arrayScan_eq, hm]
  · intro hnom k e hk hF hall
    have hm : arrayMatchIdx c l = none :=
      (findIdxP_none_iff (arrB c) l).mpr fun j e' he' => hnom j e' he'
    have hf : firstFree l = some k :=
      (findIdxP_some_iff (slotFree (T := T)) l k).mpr
        ⟨⟨e, hk, hF⟩, fun j hj e' he' => hall j e' hj he'⟩
    simp [arrayFindOrAlloc, arrayScan_eq, hm, hf]
  · intro hnom hnof
    have hm : arrayMatchIdx c l = none :=
      (findIdxP_none_iff (arrB c) l).mpr fun j e' he' => hnom j e' he'
    have hf : firstFree l = none :=
      (findIdxP_none_iff (slotFree (T := T)) l).mpr fun j e' he' => hnof j e' he'
    simp [arrayFindOrAlloc, arrayScan_eq, hm, hf]
  · intro k e hk hc hall
    have hm : mruMatchIdx c l = some k :=
      (findIdxP_some_iff (fun e => c e.2) l k).mpr
        ⟨⟨e, hk, hc⟩, fun j hj e' he' => hall j e' hj he'⟩
    simp [mruFindOrAlloc, mruScan_eq, hm]
  · intro hnom k e hk hF hall
    have hm : mruMatchIdx c l = none :=
      (findIdxP_none_iff (fun e => c e.2) l).mpr fun j e' he' => hnom j e' he'
    have hf : lastIdxP (slotFree (T := T)) l = some k :=
      (lastIdxP_some_iff (slotFree (T := T)) l k).mpr
        ⟨⟨e, hk, hF⟩, fun j hj e' he' => hall j e' hj he'⟩
    simp [mruFindOrAlloc, mruScan_eq, hm, hf, lastFree]
  · intro hnom hnof
    have hm : mruMatchIdx c l = none :=
      (findIdxP_none_iff (fun e => c e.2) l).mpr fun j e' he' => hnom j e' he'
    have hf : lastIdxP (slotFree (T := T)) l = none :=
      (lastIdxP_none_iff (slotFree (T := T)) l).mpr fun j e' he' => hnof j e' he'
    simp [mruFindOrAlloc, mruScan_eq, hm, hf, lastFree]

/-- C1 witness: on the `ArrayArena` `[(0, 3), (2, 7)]` with key `(· == 7)`
the borrowed slot 1 matches and wins over the earlier free slot 0. -/
theorem arena_find_or_alloc_spec_witness :
    arrayFindOrAlloc (fun d => d == 7) (fun d => d + 1) [(0, 3), (2, 7)] =
      some (1, incRef [(0, 3), (2, 7)] 1) :=
  (arena_find_or_alloc_spec Nat (fun d => d == 7) (fun d => d + 1)
    [(0, 3), (2, 7)]).1 1 (2, 7) (by rfl) (by decide)
    (fun j e' hj he' => by
      have hj0 : j = 0 := by omega
      subst hj0
      have : e' = ((0 : Nat), (3 : Nat)) := by
        simpa using he'.symm
      subst this
      decide)

/-! ### C2 — MruArena allocation order and dealloc list movement -/

/-- C2: `dealloc` of the last handle does not move the entry to the front
of the intrusive list.  On the two-slot arena `[(1, 10), (5, 20)]` (front
first), deallocating the front entry's last handle finalizes it and
`push_back`s it: the result is `[(5, 20), (0, 11)]` — the freed entry sits
at the back, the least-recently-used end.  Consequently the next
`alloc_handle`, scanning `iter().rev()` from the back, picks exactly the
just-released entry (position 1), i.e. eviction chooses the most recently
released buffer, not the least-recently-used one. -/
theorem mru_dealloc_pushes_back :
    mruDealloc (fun d => d + 1) [(1, 10), (5, 20)] 0 = [(5, 20), (0, 11)] ∧
    mruAlloc (fun d => d + 100) [(5, 20), (0, 11)] =
      some (1, [(5, 20), (1, 111)]) := by
  decide

/-! ### Helper lemmas on the pipe ring arithmetic and queue -/

theorem unread_lt_of_not_full (p : PipeInner) (h : PipeInv p)
    (hne : ¬p.nwrite = (p.nread + PIPESIZE) % W32) : unread p < PIPESIZE := by
  rcases h with ⟨h1, h2, h3⟩
  simp only [unread, W32, PIPESIZE] at *
  omega

theorem unread_eq_of_full (p : PipeInner) (h : PipeInv p)
    (heq : p.nwrite = (p.nread + PIPESIZE) % W32) : unread p = PIPESIZE := by
  rcases h with ⟨h1, h2, h3⟩
  simp only [unread, W32, PIPESIZE] at *
  omega

theorem full_of_unread_eq (p : PipeInner) (h : PipeInv p)
    (heq : unread p = PIPESIZE) : p.nwrite = (p.nread + PIPESIZE) % W32 := by
  rcases h with ⟨h1, h2, h3⟩
  simp only [unread, W32, PIPESIZE] at *
  omega

theorem pipe_empty_iff (p : PipeInner) (h : PipeInv p) :
    p.nread = p.nwrite ↔ unread p = 0 := by
  rcases h with ⟨h1, h2, h3⟩
  simp only [unread, W32, PIPESIZE] at *
  omega

/-- Advancing the write cursor of a non-full ring bumps `unread` by one
and keeps the invariant; the data update is irrelevant to both. -/
theorem unread_advance_write (p : PipeInner) (D : Nat → Nat) (h : PipeInv p)
    (hlt : unread p < PIPESIZE) :
    unread { p with data := D, nwrite := (p.nwrite + 1) % W32 } = unread p + 1 ∧
    PipeInv { p with data := D, nwrite := (p.nwrite + 1) % W32 } := by
  rcases h with ⟨h1, h2, h3⟩
  simp only [unread, PipeInv, W32, PIPESIZE] at *
  omega

/-- Advancing the read cursor of a nonempty ring drops `unread` by one and
keeps the invariant. -/
theorem unread_advance_read (p : PipeInner) (h : PipeInv p)
    (hne : unread p ≠ 0) :
    unread { p with nread := (p.nread + 1) % W32 } = unread p - 1 ∧
    PipeInv { p with nread := (p.nread + 1) % W32 } := by
  rcases h with ⟨h1, h2, h3⟩
  simp only [unread, PipeInv, W32, PIPESIZE] at *
  omega

theorem range_map_shift (f : Nat → Nat) (i t : Nat) :
    (List.range (t + 1)).map (fun k => f (i + k)) =
      f i :: (List.range t).map (fun k => f (i + 1 + k)) := by
  rw [List.range_succ_eq_map, List.map_cons, List.map_map]
  refine congrArg₂ _ (by simp) ?_
  apply List.map_congr_left
  intro a _
  simp [Function.comp]
  congr 1
  omega

/-- Writing a byte at `nwrite % PIPESIZE` and advancing the write cursor
appends that byte to the abstract queue. -/
theorem queue_write (p : PipeInner) (ch : Nat) (h : PipeInv p)
    (hlt : unread p < PIPESIZE) :
    queue { p with
            data := fun j => if j = p.nwrite % PIPESIZE then ch else p.data j
            nwrite := (p.nwrite + 1) % W32 } = queue p ++ [ch] := by
  obtain ⟨hu, hInv⟩ :=
    unread_advance_write p
      (fun j => if j = p.nwrite % PIPESIZE then ch else p.data j) h hlt
  rcases h with ⟨h1, h2, h3⟩
  simp only [queue, hu]
  rw [List.range_succ, List.map_append]
  congr 1
  · apply List.map_congr_left
    intro k hk
    have hk' : k < unread p := List.mem_range.mp hk
    have hne : ¬(p.nread + k) % PIPESIZE = p.nwrite % PIPESIZE := by
      simp only [unread, W32, PIPESIZE] at *
      omega
    simp [hne]
  · have heq : (p.nread + unread p) % PIPESIZE = p.nwrite % PIPESIZE := by
      simp only [unread, W32, PIPESIZE] at *
      omega
    simp [heq]

/-- Advancing the read cursor of a nonempty ring: the head of the queue is
the byte at `nread % PIPESIZE`, and the new queue is the tail. -/
theorem queue_read (p : PipeInner) (h : PipeInv p) (hne : unread p ≠ 0) :
    queue p =
      p.data (p.nread % PIPESIZE) ::
        queue { p with nread := (p.nread + 1) % W32 } := by
  obtain ⟨hu, hInv⟩ := unread_advance_read p h hne
  rcases h with ⟨h1, h2, h3⟩
  simp only [queue, hu]
  obtain ⟨u', hu'⟩ : ∃ u', unread p = u' + 1 :=
    ⟨unread p - 1, by omega⟩
  rw [hu']
  simp only [Nat.add_sub_cancel]
  rw [List.range_succ_eq_map, List.map_cons, List.map_map]
  refine congrArg₂ _ (by simp) ?_
  apply List.map_congr_left
  intro k _
  simp only [Function.comp]
  have : ((p.nread + 1) % W32 + k) % PIPESIZE = (p.nread + (k + 1)) % PIPESIZE := by
    simp only [W32, PIPESIZE] at *
    omega
  simp [this]

/-- The write loop of `try_write` with an always-successful `copy_in`
drawing byte `f j` at offset `j`: it transfers
`min rem (PIPESIZE - unread p)` bytes, appending them to the queue in
order, preserves the invariant, and touches neither the read cursor nor
the open flags. -/
theorem tryWriteGo_total_spec (f : Nat → Nat) :
    ∀ (rem : Nat) (p : PipeInner) (i : Nat), PipeInv p →
      ∃ p', tryWriteGo (fun j => some (f j)) p i rem =
          (.ok (i + min rem (PIPESIZE - unread p)), p') ∧
        PipeInv p' ∧ p'.nread = p.nread ∧ p'.readopen = p.readopen ∧
        p'.writeopen = p.writeopen ∧
        unread p' = unread p + min rem (PIPESIZE - unread p) ∧
        queue p' = queue p ++
          (List.range (min rem (PIPESIZE - unread p))).map (fun k => f (i + k)) := by
  intro rem
  induction rem with
  | zero =>
    intro p i h
    exact ⟨p, by simp [tryWriteGo], h, rfl, rfl, rfl, by simp, by simp⟩
  | succ rem ih =>
    intro p i h
    by_cases hfull : p.nwrite = (p.nread + PIPESIZE) % W32
    · have hu : unread p = PIPESIZE := unread_eq_of_full p h hfull
      refine ⟨p, ?_, h, rfl, rfl, rfl, by simp [hu], by simp [hu]⟩
      simp [tryWriteGo, hfull, hu]
    · have hlt : unread p < PIPESIZE := unread_lt_of_not_full p h hfull
      set p₂ : PipeInner :=
        { p with
          data := fun j => if j = p.nwrite % PIPESIZE then f i else p.data j
          nwrite := (p.nwrite + 1) % W32 } with hp₂
      obtain ⟨hu₂, hInv₂⟩ :=
        unread_advance_write p
          (fun j => if j = p.nwrite % PIPESIZE then f i else p.data j) h hlt
      have hq₂ : queue p₂ = queue p ++ [f i] := queue_write p (f i) h hlt
      obtain ⟨p', hrun, hI, hr, hro, hwo, hu', hq'⟩ := ih p₂ (i + 1) hInv₂
      have hmin : min (rem + 1) (PIPESIZE - unread p) =
          min rem (PIPESIZE - unread p₂) + 1 := by
        rw [hu₂]; omega
      refine ⟨p', ?_, hI, by rw [hr], by rw [hro], by rw [hwo], ?_, ?_⟩
      · rw [show tryWriteGo (fun j => some (f j)) p i (rem + 1)
              = tryWriteGo (fun j => some (f j)) p₂ (i + 1) rem by
            simp [tryWriteGo, hfull, hp₂]]
        rw [hrun, hmin]
        congr 2
        omega
      · rw [hu', hu₂, hmin]; omega
      · rw [hq', hq₂, hmin, List.append_assoc]
        congr 1
        rw [range_map_shift]
        rfl

/-- The read loop of `try_read` with an always-successful `copy_out`: it
consumes and delivers `min rem (unread p)` bytes — exactly the front of
the abstract queue, in FIFO order — preserves the invariant, and touches
neither the write cursor, the open flags, nor the ring contents. -/
theorem tryReadGo_total_spec :
    ∀ (rem : Nat) (p : PipeInner) (out : List Nat) (i : Nat), PipeInv p →
      ∃ p', tryReadGo (fun _ => true) p out i rem =
          (.ok (i + min rem (unread p)), p', out ++ (queue p).take (min rem (unread p))) ∧
        PipeInv p' ∧ p'.nwrite = p.nwrite ∧ p'.readopen = p.readopen ∧
        p'.writeopen = p.writeopen ∧ p'.data = p.data ∧
        unread p' = unread p - min rem (unread p) ∧
        queue p' = (queue p).drop (min rem (unread p)) := by
  intro rem
  induction rem with
  | zero =>
    intro p out i h
    exact ⟨p, by simp [tryReadGo], h, rfl, rfl, rfl, rfl, by simp, by simp⟩
  | succ rem ih =>
    intro p out i h
    by_cases hempty : p.nread = p.nwrite
    · have hu : unread p = 0 := (pipe_empty_iff p h).mp hempty
      refine ⟨p, ?_, h, rfl, rfl, rfl, rfl, by simp [hu], by simp [hu]⟩
      simp [tryReadGo, hempty, hu]
    · have hne : unread p ≠ 0 := fun h0 =>
        hempty ((pipe_empty_iff p h).mpr h0)
      set p₂ : PipeInner := { p with nread := (p.nread + 1) % W32 } with hp₂
      obtain ⟨hu₂, hInv₂⟩ := unread_advance_read p h hne
      have hq : queue p = p.data (p.nread % PIPESIZE) :: queue p₂ :=
        queue_read p h hne
      obtain ⟨p', hrun, hI, hw, hro, hwo, hd, hu', hq'⟩ :=
        ih p₂ (out ++ [p.data (p.nread % PIPESIZE)]) (i + 1) hInv₂
      have hmin : min (rem + 1) (unread p) = min rem (unread p₂) + 1 := by
        rw [hu₂]; omega
      refine ⟨p', ?_, hI, by rw [hw], by rw [hro], by rw [hwo],
        by rw [hd], ?_, ?_⟩
      · rw [show tryReadGo (fun _ => true) p out i (rem + 1)
              = tryReadGo (fun _ => true) p₂
                  (out ++ [p.data (p.nread % PIPESIZE)]) (i + 1) rem by
            simp [tryReadGo, hempty, hp₂]]
        rw [hrun, hmin]
        refine congrArg₂ _ (by congr 1; omega) (congrArg₂ _ rfl ?_)
        rw [hq, List.take_succ_cons, List.append_assoc]
        rfl
      · rw [hu', hu₂, hmin]; omega
      · rw [hq', hq, hmin, List.drop_succ_cons]

/-- Invariant preservation of the write loop for an arbitrary (possibly
faulting) `copy_in` source. -/
theorem tryWriteGo_inv (src : Nat → Option Nat) :
    ∀ (rem : Nat) (p : PipeInner) (i : Nat), PipeInv p →
      PipeInv (tryWriteGo src p i rem).2 ∧
      (tryWriteGo src p i rem).2.nread = p.nread ∧
      (tryWriteGo src p i rem).2.readopen = p.readopen ∧
      (tryWriteGo src p i rem).2.writeopen = p.writeopen := by
  intro rem
  induction rem with
  | zero =>
    intro p i h
    rw [show tryWriteGo src p i 0 = (.ok i, p) from by simp [tryWriteGo]]
    exact ⟨h, rfl, rfl, rfl⟩
  | succ rem ih =>
    intro p i h
    by_cases hfull : p.nwrite = (p.nread + PIPESIZE) % W32
    · rw [show tryWriteGo src p i (rem + 1) = (.ok i, p) from by
          simp [tryWriteGo, hfull]]
      exact ⟨h, rfl, rfl, rfl⟩
    · have hlt : unread p < PIPESIZE := unread_lt_of_not_full p h hfull
      cases hsrc : src i with
      | none =>
        rw [show tryWriteGo src p i (rem + 1) = (.error (.invalidCopyin i), p)
              from by simp [tryWriteGo, hfull, hsrc]]
        exact ⟨h, rfl, rfl, rfl⟩
      | some ch =>
        obtain ⟨-, hInv₂⟩ :=
          unread_advance_write p
            (fun j => if j = p.nwrite % PIPESIZE then ch else p.data j) h hlt
        have hstep := ih { p with
            data := fun j => if j = p.nwrite % PIPESIZE then ch else p.data j
            nwrite := (p.nwrite + 1) % W32 } (i + 1) hInv₂
        rw [show tryWriteGo src p i (rem + 1)
              = tryWriteGo src { p with
                  data := fun j => if j = p.nwrite % PIPESIZE then ch else p.data j
                  nwrite := (p.nwrite + 1) % W32 } (i + 1) rem from by
            simp [tryWriteGo, hfull, hsrc]]
        exact hstep

/-- Invariant preservation of the read loop for an arbitrary (possibly
faulting) `copy_out` destination. -/
theorem tryReadGo_inv (dst : Nat → Bool) :
    ∀ (rem : Nat) (p : PipeInner) (out : List Nat) (i : Nat), PipeInv p →
      PipeInv (tryReadGo dst p out i rem).2.1 ∧
      (tryReadGo dst p out i rem).2.1.nwrite = p.nwrite ∧
      (tryReadGo dst p out i rem).2.1.readopen = p.readopen ∧
      (tryReadGo dst p out i rem).2.1.writeopen = p.writeopen := by
  intro rem
  induction rem with
  | zero =>
    intro p out i h
    rw [show tryReadGo dst p out i 0 = (.ok i, p, out) from by simp [tryReadGo]]
    exact ⟨h, rfl, rfl, rfl⟩
  | succ rem ih =>
    intro p out i h
    by_cases hempty : p.nread = p.nwrite
    · rw [show tryReadGo dst p out i (rem + 1) = (.ok i, p, out) from by
          simp [tryReadGo, hempty]]
      exact ⟨h, rfl, rfl, rfl⟩
    · have hne : unread p ≠ 0 := fun h0 =>
        hempty ((pipe_empty_iff p h).mpr h0)
      obtain ⟨-, hInv₂⟩ := unread_advance_read p h hne
      cases hdst : dst i with
      | true =>
        have hstep := ih { p with nread := (p.nread + 1) % W32 }
          (out ++ [p.data (p.nread % PIPESIZE)]) (i + 1) hInv₂
        rw [show tryReadGo dst p out i (rem + 1)
              = tryReadGo dst { p with nread := (p.nread + 1) % W32 }
                  (out ++ [p.data (p.nread % PIPESIZE)]) (i + 1) rem from by
            simp [tryReadGo, hempty, hdst]]
        exact hstep
      | false =>
        rw [show tryReadGo dst p out i (rem + 1)
              = (.ok i, { p with nread := (p.nread + 1) % W32 }, out) from by
            simp [tryReadGo, hempty, hdst]]
        exact ⟨hInv₂, rfl, rfl, rfl⟩

/-! ### C7 — pipe write larger than the ring with no reader -/

set_option maxRecDepth 40000 in
/-- C7 counterexample: a 513-byte write into a fresh pipe whose reader
never runs does not return a partial count.  First conjunct: the first
`Pipe::write` loop iteration transfers 512 bytes and then sleeps on the
write wait channel instead of returning.  Second conjunct: once the ring
is full, each further iteration is a self-loop — `try_write` returns
`Ok(0)` and the writer sleeps again with the same state, forever, so the
count 512 is never returned.  Third conjunct: if instead the read end is
already closed ("no reader" as closed fd), the write returns `Err(())`,
again not a partial count. -/
theorem pipe_write_overlong_no_reader :
    (writeIter false (fun _ => some 7) pipeInit 513 0).isSleep = true ∧
    writeIter false (fun _ => some 7)
      { data := fun _ => 7, nread := 0, nwrite := 512, readopen := true,
        writeopen := true } 513 512 =
      .sleep 512
        { data := fun _ => 7, nread := 0, nwrite := 512, readopen := true,
          writeopen := true } ∧
    writeIter false (fun _ => some 7)
      { data := fun _ => 0, nread := 0, nwrite := 0, readopen := false,
        writeopen := true } 513 0 = .ret (.error ()) := by
  refine ⟨by rfl, by rfl, by rfl⟩

/-- C7 (amended): a pipe write of `n` bytes larger than the ring when no
reader consumes does not return a partial count.  If the read end is
closed, the write returns `Err(())`.  If the read end is open, the loop
transfers `PIPESIZE - unread p` bytes, fills the ring and sleeps on the
write wait channel; every subsequent iteration over the full ring sleeps
again with the state unchanged, so the writer blocks until a reader makes
space or closes.  (A partial count `Ok(written + i)` is returned only when
`copy_in` faults.) -/
theorem pipe_write_blocks_without_reader :
    ∀ (killed : Bool) (src : Nat → Option Nat) (f : Nat → Nat)
      (p : PipeInner) (n written : Nat),
      (p.readopen = false → writeIter killed src p n written = .ret (.error ())) ∧
      (PipeInv p → p.readopen = true → unread p = PIPESIZE → written < n →
        writeIter false src p n written = .sleep written p) ∧
      (PipeInv p → p.readopen = true → written + (PIPESIZE - unread p) < n →
        ∃ p', writeIter false (fun j => some (f j)) p n written =
            .sleep (written + (PIPESIZE - unread p)) p' ∧
          PipeInv p' ∧ unread p' = PIPESIZE ∧ p'.readopen = true) := by
  intro killed src f p n written
  refine ⟨?_, ?_, ?_⟩
  · intro hro
    simp [writeIter, tryWrite, hro]
  · intro hInv hro hfull hlt
    have hfull' : p.nwrite = (p.nread + PIPESIZE) % W32 :=
      full_of_unread_eq p hInv hfull
    obtain ⟨rem, hrem⟩ : ∃ rem, n - written = rem + 1 :=
      ⟨n - written - 1, by omega⟩
    have hgo : tryWriteGo (fun i => src (written + i)) p 0 (n - written)
        = (.ok 0, p) := by
      rw [hrem]
      simp [tryWriteGo, hfull']
    simp [writeIter, tryWrite, hro, hgo, hlt]
  · intro hInv hro hlt
    obtain ⟨p', hrun, hI, hr, hro', hwo, hu, hq⟩ :=
      tryWriteGo_total_spec (fun i => f (written + i)) (n - written) p 0 hInv
    have hmin : min (n - written) (PIPESIZE - unread p) =
        PIPESIZE - unread p := by omega
    have hspace : unread p ≤ PIPESIZE := hInv.2.2
    refine ⟨p', ?_, hI, by rw [hu, hmin]; omega, by rw [hro', hro]⟩
    rw [writeIter]
    rw [show tryWrite false (fun i => (fun j => some (f j)) (written + i)) p
          (n - written)
        = tryWriteGo (fun i => some (f (written + i))) p 0 (n - written) by
      simp [tryWrite, hro]]
    rw [hrun, hmin]
    simp only [Nat.zero_add]
    rw [if_pos (by omega)]

/-- C7 witness: from the full ring (512 unread bytes), a 513-byte write
with 512 bytes already transferred sleeps with its state unchanged. -/
theorem pipe_write_blocks_without_reader_witness :
    writeIter false (fun _ => some 9)
      { data := fun _ => 9, nread := 0, nwrite := 512, readopen := true,
        writeopen := true } 513 512 =
      .sleep 512
        { data := fun _ => 9, nread := 0, nwrite := 512, readopen := true,
          writeopen := true } :=
  (pipe_write_blocks_without_reader false (fun _ => some 9) (fun _ => 9)
    { data := fun _ => 9, nread := 0, nwrite := 512, readopen := true,
      writeopen := true } 513 512).2.1
    (by constructor <;> simp [unread, W32, PIPESIZE])
    rfl (by simp [unread, W32, PIPESIZE]) (by omega)

/-! ### C10 — pipe ring invariant and FIFO delivery -/

/-- C10: the pipe-ring invariant and FIFO behavior.  The initial pipe
satisfies the invariant `0 ≤ nwrite.wrapping_sub(nread) ≤ PIPESIZE`, and
every `try_write`/`try_read` (any kill flag, any faulting user memory)
preserves it, so it holds in every reachable state.  A `try_write` on a
full ring (`nwrite == nread + PIPESIZE` wrapping) stops immediately with
`Ok(0)`; a `try_read` on an empty ring (`nread == nwrite`) with the write
end open stops with the sleep signal.  With non-faulting user memory, a
write of `n` bytes from source `f` transfers `min n (PIPESIZE - unread)`
bytes and appends exactly them to the abstract queue (each stored at index
`nwrite % PIPESIZE`), and a read of `n` bytes delivers exactly
`min n unread` bytes — the front of the queue, in FIFO order, each taken
at index `nread % PIPESIZE` — leaving the rest. -/
theorem pipe_ring_fifo_spec :
    ∀ (killed : Bool) (src : Nat → Option Nat) (dst : Nat → Bool)
      (f : Nat → Nat) (p : PipeInner) (n : Nat),
      PipeInv pipeInit ∧
      (PipeInv p → unread p ≤ PIPESIZE) ∧
      (PipeInv p → PipeInv (tryWrite killed src p n).2) ∧
      (PipeInv p → PipeInv (tryRead killed dst p n).2.1) ∧
      (PipeInv p → unread p = PIPESIZE → p.readopen = true →
        tryWrite false src p n = (.ok 0, p)) ∧
      (PipeInv p → unread p = 0 → p.writeopen = true →
        tryRead false dst p n = (.error .waitForIo, p, [])) ∧
      (PipeInv p → p.readopen = true →
        ∃ p', tryWrite false (fun j => some (f j)) p n =
            (.ok (min n (PIPESIZE - unread p)), p') ∧
          PipeInv p' ∧
          unread p' = unread p + min n (PIPESIZE - unread p) ∧
          queue p' = queue p ++ (List.range (min n (PIPESIZE - unread p))).map f) ∧
      (PipeInv p → ¬(p.nread = p.nwrite ∧ p.writeopen = true) →
        ∃ p', tryRead false (fun _ => true) p n =
            (.ok (min n (unread p)), p', (queue p).take (min n (unread p))) ∧
          PipeInv p' ∧ queue p' = (queue p).drop (min n (unread p)) ∧
          unread p' = unread p - min n (unread p)) := by
  intro killed src dst f p n
  refine ⟨?_, fun h => h.2.2, ?_, ?_, ?_, ?_, ?_, ?_⟩
  · refine ⟨by norm_num [pipeInit, W32], by norm_num [pipeInit, W32], ?_⟩
    norm_num [pipeInit, unread, W32, PIPESIZE]
  · intro h
    simp only [tryWrite]
    split
    · exact h
    · exact (tryWriteGo_inv src n p 0 h).1
  · intro h
    simp only [tryRead]
    split
    · split <;> exact h
    · exact (tryReadGo_inv dst n p [] 0 h).1
  · intro h hfull hro
    have hfull' : p.nwrite = (p.nread + PIPESIZE) % W32 :=
      full_of_unread_eq p h hfull
    cases n with
    | zero => simp [tryWrite, tryWriteGo, hro]
    | succ m => simp [tryWrite, tryWriteGo, hro, hfull']
  · intro h hempty hwo
    have he : p.nread = p.nwrite := (pipe_empty_iff p h).mpr hempty
    simp [tryRead, he, hwo]
  · intro h hro
    obtain ⟨p', hrun, hI, -, -, -, hu, hq⟩ :=
      tryWriteGo_total_spec f n p 0 h
    refine ⟨p', ?_, hI, hu, ?_⟩
    · rw [show tryWrite false (fun j => some (f j)) p n
            = tryWriteGo (fun j => some (f j)) p 0 n by simp [tryWrite, hro]]
      rw [hrun]
      simp
    · rw [hq]
      simp
  · intro h hg
    obtain ⟨p', hrun, hI, -, -, -, -, hu, hq⟩ :=
      tryReadGo_total_spec n p [] 0 h
    refine ⟨p', ?_, hI, hq, hu⟩
    rw [show tryRead false (fun _ => true) p n
          = tryReadGo (fun _ => true) p [] 0 n by simp [tryRead, hg]]
    rw [hrun]
    simp

/-! ### Helper lemmas for the bitmap scan of balloc -/

theorem ballocInner_none_iff (bm : Nat → Bool) (b : Nat) :
    ∀ (k cnt lo : Nat), cnt - lo = k →
      (ballocInner bm b lo cnt = none ↔
        ∀ x, lo ≤ x → x < cnt → bm (b + x) = true) := by
  intro k
  induction k with
  | zero =>
    intro cnt lo hk
    have hres : ballocInner bm b lo cnt = none := by
      rw [ballocInner]; simp [show ¬lo < cnt by omega]
    rw [hres]
    constructor
    · intro _ x hx1 hx2; omega
    · intro _; rfl
  | succ k ih =>
    intro cnt lo hk
    have hlt : lo < cnt := by omega
    cases hbm : bm (b + lo) with
    | false =>
      have hres : ballocInner bm b lo cnt = some (b + lo) := by
        rw [ballocInner]; simp [hlt, hbm]
      rw [hres]
      constructor
      · intro h; exact absurd h (by simp)
      · intro h
        have := h lo (by omega) hlt
        rw [this] at hbm
        cases hbm
    | true =>
      have hres : ballocInner bm b lo cnt = ballocInner bm b (lo + 1) cnt := by
        rw [ballocInner]; simp [hlt, hbm]
      rw [hres, ih cnt (lo + 1) (by omega)]
      constructor
      · intro h x hx1 hx2
        rcases Nat.eq_or_lt_of_le hx1 with heq | hlt'
        · rw [← heq]; exact hbm
        · exact h x (by omega) hx2
      · intro h x hx1 hx2
        exact h x (by omega) hx2

theorem ballocInner_some_iff (bm : Nat → Bool) (b : Nat) :
    ∀ (k cnt lo j : Nat), cnt - lo = k →
      (ballocInner bm b lo cnt = some j ↔
        ∃ x, lo ≤ x ∧ x < cnt ∧ j = b + x ∧ bm (b + x) = false ∧
          ∀ y, lo ≤ y → y < x → bm (b + y) = true) := by
  intro k
  induction k with
  | zero =>
    intro cnt lo j hk
    have hres : ballocInner bm b lo cnt = none := by
      rw [ballocInner]; simp [show ¬lo < cnt by omega]
    rw [hres]
    constructor
    · intro h; exact absurd h (by simp)
    · rintro ⟨x, hx1, hx2, -⟩; omega
  | succ k ih =>
    intro cnt lo j hk
    have hlt : lo < cnt := by omega
    cases hbm : bm (b + lo) with
    | false =>
      have hres : ballocInner bm b lo cnt = some (b + lo) := by
        rw [ballocInner]; simp [hlt, hbm]
      rw [hres]
      constructor
      · intro h
        cases h
        exact ⟨lo, le_refl lo, hlt, rfl, hbm, fun y hy1 hy2 => by omega⟩
      · rintro ⟨x, hx1, hx2, rfl, hxf, hmin⟩
        rcases Nat.eq_or_lt_of_le hx1 with heq | hlt'
        · rw [heq]
        · have := hmin lo (by omega) (by omega)
          rw [this] at hbm
          cases hbm
    | true =>
      have hres : ballocInner bm b lo cnt = ballocInner bm b (lo + 1) cnt := by
        rw [ballocInner]; simp [hlt, hbm]
      rw [hres, ih cnt (lo + 1) j (by omega)]
      constructor
      · rintro ⟨x, hx1, hx2, rfl, hxf, hmin⟩
        refine ⟨x, by omega, hx2, rfl, hxf, ?_⟩
        intro y hy1 hy2
        rcases Nat.eq_or_lt_of_le hy1 with heq | hlt'
        · rw [← heq]; exact hbm
        · exact hmin y (by omega) hy2
      · rintro ⟨x, hx1, hx2, rfl, hxf, hmin⟩
        have hxlo : lo ≠ x := by
          intro heq
          rw [heq] at hbm
          rw [hbm] at hxf
          cases hxf
        refine ⟨x, by omega, hx2, rfl, hxf, ?_⟩
        intro y hy1 hy2
        exact hmin y (by omega) hy2

theorem ballocOuter_none_iff (bm : Nat → Bool) :
    ∀ (k size b : Nat), size - b = k →
      (ballocOuter bm size b = none ↔
        ∀ y, b ≤ y → y < size → bm y = true) := by
  intro k
  induction k using Nat.strong_induction_on with
  | _ k ih =>
    intro size b hk
    by_cases hb : b < size
    · cases hinner : ballocInner bm b 0 (min BPB (size - b)) with
      | some j =>
        have hres : ballocOuter bm size b = some j := by
          rw [ballocOuter]; simp [hb, hinner]
        rw [hres]
        rcases (ballocInner_some_iff bm b _ _ 0 j rfl).mp hinner with
          ⟨x, -, hx2, rfl, hxf, -⟩
        constructor
        · intro h; exact absurd h (by simp)
        · intro h
          have := h (b + x) (by omega) (by omega)
          rw [this] at hxf
          cases hxf
      | none =>
        have hres : ballocOuter bm size b = ballocOuter bm size (b + BPB) := by
          rw [ballocOuter]; simp [hb, hinner]
        have hchunk := (ballocInner_none_iff bm b _ _ 0 rfl).mp hinner
        rw [hres,
          ih (size - (b + BPB)) (by simp only [BPB, BSIZE] at *; omega)
            size (b + BPB) rfl]
        constructor
        · intro h y hy1 hy2
          by_cases hyc : y < b + BPB
          · have := hchunk (y - b) (by omega) (by omega)
            rwa [show b + (y - b) = y by omega] at this
          · exact h y (by omega) hy2
        · intro h y hy1 hy2
          exact h y (by omega) hy2
    · have hres : ballocOuter bm size b = none := by
        rw [ballocOuter]; simp [hb]
      rw [hres]
      constructor
      · intro _ y hy1 hy2; omega
      · intro _; rfl

theorem ballocOuter_some_iff (bm : Nat → Bool) :
    ∀ (k size b j : Nat), size - b = k →
      (ballocOuter bm size b = some j ↔
        b ≤ j ∧ j < size ∧ bm j = false ∧
          ∀ y, b ≤ y → y < j → bm y = true) := by
  intro k
  induction k using Nat.strong_induction_on with
  | _ k ih =>
    intro size b j hk
    by_cases hb : b < size
    · cases hinner : ballocInner bm b 0 (min BPB (size - b)) with
      | some j' =>
        have hres : ballocOuter bm size b = some j' := by
          rw [ballocOuter]; simp [hb, hinner]
        rw [hres]
        rcases (ballocInner_some_iff bm b _ _ 0 j' rfl).mp hinner with
          ⟨x, -, hx2, rfl, hxf, hmin⟩
        constructor
        · intro h
          cases h
          refine ⟨by omega, by omega, hxf, ?_⟩
          intro y hy1 hy2
          have := hmin (y - b) (by omega) (by omega)
          rwa [show b + (y - b) = y by omega] at this
        · rintro ⟨hj1, hj2, hjf, hjmin⟩
          have hnlt : ¬b + x < j := by
            intro hlt
            have := hjmin (b + x) (by omega) hlt
            rw [this] at hxf
            cases hxf
          have hngt : ¬j < b + x := by
            intro hlt
            have := hmin (j - b) (by omega) (by omega)
            rw [show b + (j - b) = j by omega] at this
            rw [this] at hjf
            cases hjf
          congr 1
          omega
      | none =>
        have hres : ballocOuter bm size b = ballocOuter bm size (b + BPB) := by
          rw [ballocOuter]; simp [hb, hinner]
        have hchunk := (ballocInner_none_iff bm b _ _ 0 rfl).mp hinner
        rw [hres,
          ih (size - (b + BPB)) (by simp only [BPB, BSIZE] at *; omega)
            size (b + BPB) j rfl]
        constructor
        · rintro ⟨hj1, hj2, hjf, hjmin⟩
          refine ⟨by omega, hj2, hjf, ?_⟩
          intro y hy1 hy2
          by_cases hyc : y < b + BPB
          · have := hchunk (y - b) (by omega) (by omega)
            rwa [show b + (y - b) = y by omega] at this
          · exact hjmin y (by omega) hy2
        · rintro ⟨hj1, hj2, hjf, hjmin⟩
          have hjhigh : ¬j < b + BPB := by
            intro hlt
            have := hchunk (j - b) (by omega) (by omega)
            rw [show b + (j - b) = j by omega] at this
            rw [this] at hjf
            cases hjf
          refine ⟨by omega, hj2, hjf, ?_⟩
          intro y hy1 hy2
          exact hjmin y (by omega) hy2
    · have hres : ballocOuter bm size b = none := by
        rw [ballocOuter]; simp [hb]
      rw [hres]
      constructor
      · intro h; exact absurd h (by simp)
      · rintro ⟨hj1, hj2, -⟩; omega

/-- Unfolding of `balloc` once the bitmap scan's result is known. -/
theorem balloc_eq (size : Nat) (d : Disk) (j : Nat)
    (h : ballocOuter d.bitmap size 0 = some j) :
    balloc size d = some (j,
      bzero { d with bitmap := fun b => if b = j then true else d.bitmap b } j) := by
  simp [balloc, h]

/-! ### C6 — balloc/bfree round trip on the free bitmap -/

/-- C6: `balloc` finds the first free bitmap bit, marks exactly that bit
used, zeroes the block and returns its number; `bfree` of that block on
the same device clears exactly that bit, restoring the bitmap to its
pre-`balloc` state (pointwise); the next `balloc` then returns the same
block zeroed again.  `balloc` panics (`"balloc: out of blocks"`) when no
bit in `[0, size)` is free, and `bfree` panics (`"freeing free block"`)
when the bit is already clear.  Untouched bits and untouched blocks keep
their values throughout. -/
theorem balloc_bfree_spec :
    ∀ (size : Nat) (d : Disk) (bno : Nat),
      ((∃ i, i < size ∧ d.bitmap i = false) →
        ∃ j d', balloc size d = some (j, d') ∧
          j < size ∧ d.bitmap j = false ∧ (∀ y, y < j → d.bitmap y = true) ∧
          d'.bitmap j = true ∧ (∀ k, k ≠ j → d'.bitmap k = d.bitmap k) ∧
          (∀ o, d'.data j o = 0) ∧ (∀ k, k ≠ j → d'.data k = d.data k) ∧
          ∃ d'', bfree d' j = some d'' ∧
            (∀ k, d''.bitmap k = d.bitmap k) ∧
            ∃ e, balloc size d'' = some (j, e) ∧ (∀ o, e.data j o = 0)) ∧
      ((∀ i, i < size → d.bitmap i = true) → balloc size d = none) ∧
      (d.bitmap bno = false → bfree d bno = none) ∧
      (d.bitmap bno = true →
        ∃ d', bfree d bno = some d' ∧ d'.bitmap bno = false ∧
          (∀ k, k ≠ bno → d'.bitmap k = d.bitmap k) ∧ d'.data = d.data) := by
  intro size d bno
  refine ⟨?_, ?_, ?_, ?_⟩
  · intro hex
    obtain ⟨j, ⟨hj1, hj2⟩, hjmin⟩ :
        ∃ j, (j < size ∧ d.bitmap j = false) ∧
          ∀ y, y < j → ¬(y < size ∧ d.bitmap y = false) :=
      ⟨Nat.find hex, Nat.find_spec hex, fun y hy => Nat.find_min hex hy⟩
    have hminbit : ∀ y, y < j → d.bitmap y = true := by
      intro y hy
      have hne := hjmin y hy
      by_contra hb
      exact hne ⟨by omega, by simpa using hb⟩
    have houter : ballocOuter d.bitmap size 0 = some j :=
      (ballocOuter_some_iff d.bitmap (size - 0) size 0 j rfl).mpr
        ⟨Nat.zero_le j, hj1, hj2, fun y _ hy => hminbit y hy⟩
    have hballoc : balloc size d = some (j,
        bzero { d with bitmap := fun b => if b = j then true else d.bitmap b } j) := by
      simp [balloc, houter]
    set d1 : Disk :=
      bzero { d with bitmap := fun b => if b = j then true else d.bitmap b } j
      with hd1
    refine ⟨j, d1, hballoc, hj1, hj2, hminbit, by simp [hd1, bzero], ?_, ?_, ?_, ?_⟩
    · intro k hk; simp [hd1, bzero, hk]
    · simp [hd1, bzero]
    · intro k hk; simp [hd1, bzero, hk]
    · have hbit : d1.bitmap j = true := by simp [hd1, bzero]
      set d2 : Disk :=
        { d1 with bitmap := fun b' => if b' = j then false else d1.bitmap b' }
        with hd2
      have hbfree : bfree d1 j = some d2 := by
        simp only [bfree, hbit]
        rw [if_neg (by simp)]
      have hd2bm : ∀ k, d2.bitmap k = d.bitmap k := by
        intro k
        by_cases hk : k = j
        · subst hk; simp [hd2, hj2]
        · simp [hd2, hd1, bzero, hk]
      refine ⟨d2, hbfree, hd2bm, ?_⟩
      have houter2 : ballocOuter d2.bitmap size 0 = some j :=
        (ballocOuter_some_iff d2.bitmap (size - 0) size 0 j rfl).mpr
          ⟨Nat.zero_le j, hj1, by rw [hd2bm]; exact hj2,
            fun y _ hy => by rw [hd2bm]; exact hminbit y hy⟩
      refine ⟨_, balloc_eq size d2 j houter2, ?_⟩
      simp [bzero]
  · intro hall
    have houter : ballocOuter d.bitmap size 0 = none :=
      (ballocOuter_none_iff d.bitmap (size - 0) size 0 rfl).mpr
        fun y _ hy => hall y hy
    simp [balloc, houter]
  · intro hfree
    simp [bfree, hfree]
  · intro hused
    refine ⟨{ d with bitmap := fun b' => if b' = bno then false else d.bitmap b' },
      ?_, by simp, ?_, rfl⟩
    · simp only [bfree, hused]
      rw [if_neg (by simp)]
    · intro k hk
      simp [hk]

/-- C6 witness: on a two-block disk with block 0 used and block 1 free,
`balloc` allocates block 1. -/
theorem balloc_bfree_spec_witness :
    ∃ j d', balloc 2 ⟨fun i => i == 0, fun _ _ => 5⟩ = some (j, d') ∧
      j < 2 ∧ (fun i : Nat => i == 0) j = false ∧
      (∀ y, y < j → (fun i : Nat => i == 0) y = true) ∧
      d'.bitmap j = true ∧
      (∀ k, k ≠ j → d'.bitmap k = (fun i : Nat => i == 0) k) ∧
      (∀ o, d'.data j o = 0) ∧
      (∀ k, k ≠ j → d'.data k = (fun _ : Nat => (5 : Nat))) ∧
      ∃ d'', bfree d' j = some d'' ∧
        (∀ k, d''.bitmap k = (fun i : Nat => i == 0) k) ∧
        ∃ e, balloc 2 d'' = some (j, e) ∧ (∀ o, e.data j o = 0) :=
  (balloc_bfree_spec 2 ⟨fun i => i == 0, fun _ _ => 5⟩ 0).1
    ⟨1, by omega, by rfl⟩

/-! ### Helper lemmas for the wait scan -/

theorem firstZombieChild_shift (me : Nat) :
    ∀ (pool : List Proc) (i : Nat),
      firstZombieChild me pool i = (firstZombieChild me pool 0).map (· + i) := by
  intro pool
  induction pool with
  | nil => intro i; simp [firstZombieChild]
  | cons p rest ih =>
    intro i
    by_cases hp : p.parent = some me ∧ p.state = .zombie
    · simp [firstZombieChild, hp]
    · simp only [firstZombieChild, if_neg hp]
      rw [ih (i + 1), ih 1]
      cases firstZombieChild me rest 0 with
      | none => simp
      | some a => simp; omega

theorem firstZombieChild_some_iff (me : Nat) :
    ∀ (pool : List Proc) (j : Nat),
      firstZombieChild me pool 0 = some j ↔
        ∃ p, pool[j]? = some p ∧ p.parent = some me ∧ p.state = .zombie ∧
          ∀ (m : Nat) (q : Proc), m < j → pool[m]? = some q →
            ¬(q.parent = some me ∧ q.state = .zombie) := by
  intro pool
  induction pool with
  | nil => intro j; simp [firstZombieChild]
  | cons p rest ih =>
    intro j
    by_cases hp : p.parent = some me ∧ p.state = .zombie
    · simp only [firstZombieChild, if_pos hp]
      cases j with
      | zero =>
        simp only [List.getElem?_cons_zero]
        constructor
        · intro _
          exact ⟨p, rfl, hp.1, hp.2, fun m q hm => by omega⟩
        · intro _; trivial
      | succ j' =>
        constructor
        · intro h; exact absurd h (by simp)
        · rintro ⟨r, hr, -, -, hmin⟩
          have := hmin 0 p (by omega) (by simp)
          exact absurd hp this
    · simp only [firstZombieChild, if_neg hp]
      rw [firstZombieChild_shift me rest 1]
      cases j with
      | zero =>
        simp only [List.getElem?_cons_zero]
        constructor
        · intro h
          rcases Option.map_eq_some'.mp h with ⟨a, -, ha⟩
          omega
        · rintro ⟨r, hr, h1, h2, -⟩
          cases hr
          exact absurd ⟨h1, h2⟩ hp
      | succ j' =>
        simp only [List.getElem?_cons_succ]
        constructor
        · intro h
          rcases Option.map_eq_some'.mp h with ⟨a, ha, haj⟩
          have haj' : a = j' := by omega
          rw [haj'] at ha
          rcases (ih j').mp ha with ⟨r, hr, h1, h2, hmin⟩
          refine ⟨r, hr, h1, h2, ?_⟩
          intro m q hm hq
          cases m with
          | zero => simp at hq; cases hq; exact hp
          | succ m' =>
            exact hmin m' q (by omega) (by simpa using hq)
        · rintro ⟨r, hr, h1, h2, hmin⟩
          have : firstZombieChild me rest 0 = some j' :=
            (ih j').mpr ⟨r, hr, h1, h2, fun m q hm hq =>
              hmin (m + 1) q (by omega) (by simpa using hq)⟩
          simp [this]

theorem firstZombieChild_none_iff (me : Nat) :
    ∀ pool : List Proc,
      firstZombieChild me pool 0 = none ↔
        ∀ (m : Nat) (q : Proc), pool[m]? = some q →
          ¬(q.parent = some me ∧ q.state = .zombie) := by
  intro pool
  induction pool with
  | nil => simp [firstZombieChild]
  | cons p rest ih =>
    by_cases hp : p.parent = some me ∧ p.state = .zombie
    · simp only [firstZombieChild, if_pos hp]
      constructor
      · intro h; exact absurd h (by simp)
      · intro h
        exact absurd hp (h 0 p (by simp))
    · simp only [firstZombieChild, if_neg hp]
      rw [firstZombieChild_shift me rest 1]
      constructor
      · intro h m q hq
        cases m with
        | zero => simp at hq; cases hq; exact hp
        | succ m' =>
          have hnone : firstZombieChild me rest 0 = none := by
            cases hfz : firstZombieChild me rest 0 with
            | none => rfl
            | some a => rw [hfz] at h; simp at h
          exact (ih.mp hnone) m' q (by simpa using hq)
      · intro h
        have : firstZombieChild me rest 0 = none :=
          ih.mpr fun m q hq => h (m + 1) q (by simpa using hq)
        simp [this]

theorem hasChild_iff (me : Nat) (pool : List Proc) :
    hasChild me pool = true ↔
      ∃ (m : Nat) (q : Proc), pool[m]? = some q ∧ q.parent = some me := by
  simp only [hasChild, List.any_eq_true]
  constructor
  · rintro ⟨q, hq, hpar⟩
    obtain ⟨m, hm⟩ := List.mem_iff_getElem?.mp hq
    exact ⟨m, q, hm, by simpa using hpar⟩
  · rintro ⟨m, q, hm, hpar⟩
    exact ⟨q, List.mem_iff_getElem?.mpr ⟨m, hm⟩, by simpa using hpar⟩

/-! ### C4 — wait: reap a zombie child, else error or sleep -/

/-- C4: one iteration of `wait`, holding the wait-lock.  If the caller has
a ZOMBIE child, the scan reaps the first one in table order: the child's
exit status is copied to the user address when it is non-null (an error is
returned if that copy fails, leaving the child in place), the child's slot
is cleared back to UNUSED (its trap-frame page and user memory freed), and
the child's pid is returned.  With no ZOMBIE child: if the caller has no
children at all, or has been killed, `wait` returns an error; otherwise
the caller sleeps on its own child-wait channel — `sleep` receives the
wait-lock guard and releases it while asleep (spec-modelled wait-channel
contract).  The last two conjuncts pin down the scan: the reaped slot is
the first ZOMBIE child in index order, and `havekids` holds exactly when
some slot's parent pointer designates the caller. -/
theorem wait_step_spec :
    ∀ (s : PSys) (me : Nat) (addrNull copyOk : Bool) (j : Nat) (ch : Proc),
      (firstZombieChild me s.pool 0 = some j → s.pool[j]? = some ch →
        (addrNull = true ∨ copyOk = true) →
        waitStep s me addrNull copyOk =
          (.ret (.ok ch.pid) (if addrNull then none else some ch.xstate),
           { s with pool := s.pool.set j (clearProc ch),
                    livePages := s.livePages - (1 + ch.memPages) }) ∧
        (clearProc ch).state = .unused) ∧
      (firstZombieChild me s.pool 0 = some j → addrNull = false →
        copyOk = false →
        waitStep s me addrNull copyOk = (.ret (.error ()) none, s)) ∧
      (firstZombieChild me s.pool 0 = none → hasChild me s.pool = false →
        waitStep s me addrNull copyOk = (.ret (.error ()) none, s)) ∧
      (firstZombieChild me s.pool 0 = none →
        (s.pool.getD me default).killed = true →
        waitStep s me addrNull copyOk = (.ret (.error ()) none, s)) ∧
      (firstZombieChild me s.pool 0 = none → hasChild me s.pool = true →
        (s.pool.getD me default).killed = false →
        waitStep s me addrNull copyOk = (.sleepOn me, s)) ∧
      (firstZombieChild me s.pool 0 = some j ↔
        ∃ p, s.pool[j]? = some p ∧ p.parent = some me ∧ p.state = .zombie ∧
          ∀ (m : Nat) (q : Proc), m < j → s.pool[m]? = some q →
            ¬(q.parent = some me ∧ q.state = .zombie)) ∧
      (hasChild me s.pool = true ↔
        ∃ (m : Nat) (q : Proc), s.pool[m]? = some q ∧ q.parent = some me) := by
  intro s me addrNull copyOk j ch
  refine ⟨?_, ?_, ?_, ?_, ?_, firstZombieChild_some_iff me s.pool j,
    hasChild_iff me s.pool⟩
  · intro hfz hch hor
    refine ⟨?_, by simp [clearProc]⟩
    rcases hor with h1 | h1
    · subst h1
      simp [waitStep, hfz, List.getD_eq_getElem?_getD, hch]
    · subst h1
      simp [waitStep, hfz, List.getD_eq_getElem?_getD, hch]
  · intro hfz h1 h2
    subst h1; subst h2
    simp [waitStep, hfz]
  · intro hfz h1
    simp [waitStep, hfz, h1]
  · intro hfz h1
    simp only [List.getD_eq_getElem?_getD] at h1
    simp [waitStep, hfz, h1]
  · intro hfz h1 h2
    simp only [List.getD_eq_getElem?_getD] at h2
    simp [waitStep, hfz, h1, h2]

/-- C4 witness: a two-slot pool where slot 0 is the caller and slot 1 is
its ZOMBIE child with exit status 42 and 3 user pages; `wait` with a
non-null address and a succeeding copy returns pid 2, delivers 42, and
clears the slot. -/
theorem wait_step_spec_witness :
    waitStep
      { pool := [⟨.running, 1, false, 0, ⟨0, 0⟩, 0, [], 0, 0, none⟩,
                 ⟨.zombie, 2, false, 42, ⟨0, 0⟩, 3, [], 0, 0, some 0⟩],
        nextpid := 3, fileRef := fun _ => 0, inodeRef := fun _ => 0,
        livePages := 9 } 0 false true =
      (.ret (.ok 2) (if false then none else some 42),
       { pool := [⟨.running, 1, false, 0, ⟨0, 0⟩, 0, [], 0, 0, none⟩,
                  ⟨.zombie, 2, false, 42, ⟨0, 0⟩, 3, [], 0, 0, some 0⟩].set 1
           (clearProc ⟨.zombie, 2, false, 42, ⟨0, 0⟩, 3, [], 0, 0, some 0⟩),
         nextpid := 3, fileRef := fun _ => 0, inodeRef := fun _ => 0,
         livePages := 9 - (1 + 3) }) ∧
    (clearProc ⟨.zombie, 2, false, 42, ⟨0, 0⟩, 3, [], 0, 0, some 0⟩).state =
      .unused :=
  (wait_step_spec
    { pool := [⟨.running, 1, false, 0, ⟨0, 0⟩, 0, [], 0, 0, none⟩,
               ⟨.zombie, 2, false, 42, ⟨0, 0⟩, 3, [], 0, 0, some 0⟩],
      nextpid := 3, fileRef := fun _ => 0, inodeRef := fun _ => 0,
      livePages := 9 } 0 false true 1
    ⟨.zombie, 2, false, 42, ⟨0, 0⟩, 3, [], 0, 0, some 0⟩).1
    (by decide) (by rfl) (Or.inr rfl)

/-! ### Helper lemmas for the fork path -/

theorem cloneFiles_apply :
    ∀ (files : List (Option Nat)) (fr : Nat → Nat) (x : Nat),
      cloneFiles fr files x = fr x + countFile x files := by
  intro files
  induction files with
  | nil => intro fr x; simp [cloneFiles, countFile]
  | cons f rest ih =>
    intro fr x
    cases f with
    | none => simp [cloneFiles, countFile, ih]
    | some fid =>
      simp only [cloneFiles, countFile, ih]
      by_cases hx : x = fid
      · subst hx; simp; omega
      · rw [if_neg hx, if_neg (fun h => hx h.symm)]
        omega

theorem copyOpenFiles_of_clean :
    ∀ (nfs fs : List (Option Nat)),
      (∀ x ∈ nfs, x = none) → nfs.length = fs.length →
      copyOpenFiles nfs fs = fs := by
  intro nfs
  induction nfs with
  | nil =>
    intro fs _ hlen
    cases fs with
    | nil => rfl
    | cons f fs' => simp at hlen
  | cons n nfs' ih =>
    intro fs hclean hlen
    cases fs with
    | nil => simp at hlen
    | cons f fs' =>
      have hn : n = none := hclean n (by simp)
      cases f with
      | some fid =>
        simp only [copyOpenFiles]
        rw [ih fs' (fun x hx => hclean x (by simp [hx])) (by simpa using hlen)]
      | none =>
        simp only [copyOpenFiles]
        rw [hn, ih fs' (fun x hx => hclean x (by simp [hx])) (by simpa using hlen)]

theorem allocGo_none_iff (np : Nat) (page : TrapFrame) (mem : Nat) :
    ∀ (pool : List Proc) (i : Nat),
      allocGo np page mem pool i = none ↔
        ∀ q ∈ pool, ¬q.state = .unused := by
  intro pool
  induction pool with
  | nil => intro i; simp [allocGo]
  | cons p rest ih =>
    intro i
    by_cases hp : p.state = .unused
    · simp [allocGo, hp]
    · simp only [allocGo, if_neg hp, Option.map_eq_none']
      rw [ih (i + 1)]
      constructor
      · intro h q hq
        rcases List.mem_cons.mp hq with rfl | hq'
        · exact hp
        · exact h q hq'
      · intro h q hq
        exact h q (by simp [hq])

theorem allocGo_some_eq (np : Nat) (page : TrapFrame) (mem : Nat) :
    ∀ (pool : List Proc) (i j : Nat) (q : Proc),
      pool[j]? = some q → q.state = .unused →
      (∀ (m : Nat) (q' : Proc), m < j → pool[m]? = some q' →
        q'.state ≠ .unused) →
      allocGo np page mem pool i = some (i + j,
        pool.set j { q with tf := page, memPages := mem, pid := np,
                            state := .used },
        ((List.range j).flatMap fun m => [Ev.acqInfo (i + m), Ev.relInfo (i + m)]) ++
          [Ev.acqInfo (i + j)]) := by
  intro pool
  induction pool with
  | nil => intro i j q hq; simp at hq
  | cons p rest ih =>
    intro i j q hq hqu hmin
    cases j with
    | zero =>
      simp only [List.getElem?_cons_zero] at hq
      cases hq
      simp [allocGo, hqu]
    | succ j' =>
      have hp : ¬p.state = .unused :=
        hmin 0 p (by omega) (by simp)
      simp only [allocGo, if_neg hp]
      rw [ih (i + 1) j' q (by simpa using hq) hqu
          (fun m q' hm hq' => hmin (m + 1) q' (by omega) (by simpa using hq'))]
      simp only [Option.map_some']
      have hfun : (fun m => [Ev.acqInfo (i + (m + 1)), Ev.relInfo (i + (m + 1))])
          = fun m => [Ev.acqInfo (i + 1 + m), Ev.relInfo (i + 1 + m)] := by
        funext m
        rw [show i + (m + 1) = i + 1 + m by omega]
      have htr : ((List.range (j' + 1)).flatMap fun m =>
            [Ev.acqInfo (i + m), Ev.relInfo (i + m)]) ++
            [Ev.acqInfo (i + (j' + 1))]
          = Ev.acqInfo i :: Ev.relInfo i ::
            (((List.range j').flatMap fun m =>
              [Ev.acqInfo (i + 1 + m), Ev.relInfo (i + 1 + m)]) ++
              [Ev.acqInfo (i + 1 + j')]) := by
        rw [List.range_succ_eq_map, List.flatMap_cons, List.flatMap_map]
        simp only [hfun, Nat.add_zero, List.cons_append, List.nil_append,
          List.append_assoc]
        rw [show i + (j' + 1) = i + 1 + j' by omega]
      rw [htr, show i + (j' + 1) = i + 1 + j' by omega]
      rfl

/-! ### C3 — fork -/

/-- C3: `fork` for the parent at pool index `pIdx`.  On success (trap-frame
page allocated, user memory cloned, an UNUSED slot found — the first one,
at index `j`): the child's trap frame is the parent's with `a0 = 0` (the
child's system-call return value), the open-file table is copied from the
parent (each `Some` file cloned, incrementing its file-table refcount once
per occurrence), the cwd handle is cloned (inode refcount incremented),
the child's parent pointer designates the parent, its state ends RUNNABLE,
and the call returns the child's pid (the value of the monotone pid
counter).  The event trace shows the locking discipline: the slot scan
locks/unlocks each earlier slot, holds the child's info lock for the data
setup, releases it, then acquires the wait-lock, writes the parent
pointer, releases the wait-lock, re-acquires the child's info lock, sets
RUNNABLE and releases — the parent pointer is written only under the
wait-lock and only after the child's info lock has been released.  On
failure (no trap-frame page, no memory, or no UNUSED slot) `fork` returns
`Err` and the live-page count is restored, i.e. everything allocated is
freed. -/
theorem fork_spec :
    ∀ (page : TrapFrame) (memSz pIdx : Nat) (s : PSys) (pp : Proc)
      (j : Nat) (q : Proc),
      (∀ memOk, fork false page memOk memSz pIdx s = (.error (), s, [])) ∧
      (fork true page false memSz pIdx s = (.error (), s, [])) ∧
      ((∀ q' ∈ s.pool, q'.state ≠ .unused) →
        fork true page true memSz pIdx s =
          (.error (), s,
           (List.range s.pool.length).flatMap fun i =>
             [Ev.acqInfo i, Ev.relInfo i])) ∧
      (s.pool[pIdx]? = some pp → s.pool[j]? = some q → q.state = .unused →
        (∀ (m : Nat) (q' : Proc), m < j → s.pool[m]? = some q' →
          q'.state ≠ .unused) →
        ∃ s', fork true page true memSz pIdx s =
            (.ok s.nextpid, s',
             (((List.range j).flatMap fun m => [Ev.acqInfo m, Ev.relInfo m]) ++
               [Ev.acqInfo j]) ++
             [Ev.relInfo j, Ev.acqWait, Ev.writeParent j, Ev.relWait,
              Ev.acqInfo j, Ev.setRunnable j, Ev.relInfo j]) ∧
          s'.pool = s.pool.set j
            { state := .runnable, pid := s.nextpid, killed := q.killed,
              xstate := q.xstate, tf := { a0 := 0, rest := pp.tf.rest },
              memPages := memSz,
              openFiles := copyOpenFiles q.openFiles pp.openFiles,
              cwd := pp.cwd, name := pp.name, parent := some pIdx } ∧
          s'.nextpid = s.nextpid + 1 ∧
          (∀ fid, s'.fileRef fid = s.fileRef fid + countFile fid pp.openFiles) ∧
          (∀ x, s'.inodeRef x =
            if x = pp.cwd then s.inodeRef x + 1 else s.inodeRef x) ∧
          s'.livePages = s.livePages + 1 + memSz ∧
          ((∀ x ∈ q.openFiles, x = none) →
            q.openFiles.length = pp.openFiles.length →
            copyOpenFiles q.openFiles pp.openFiles = pp.openFiles)) := by
  intro page memSz pIdx s pp j q
  refine ⟨?_, ?_, ?_, ?_⟩
  · intro memOk
    simp [fork]
  · simp [fork]
  · intro hall
    have hnone : allocGo s.nextpid page memSz s.pool 0 = none :=
      (allocGo_none_iff s.nextpid page memSz s.pool 0).mpr
        fun q' hq' => hall q' hq'
    simp only [fork, procsAlloc, hnone]
    have hlp : s.livePages + 1 + memSz - (1 + memSz) = s.livePages := by omega
    simp [hlp]
  · intro hpp hq hqu hmin
    have halloc :
        allocGo s.nextpid page memSz s.pool 0 = some (0 + j,
          s.pool.set j { q with tf := page, memPages := memSz,
                                pid := s.nextpid, state := .used },
          ((List.range j).flatMap fun m =>
            [Ev.acqInfo (0 + m), Ev.relInfo (0 + m)]) ++ [Ev.acqInfo (0 + j)]) :=
      allocGo_some_eq s.nextpid page memSz s.pool 0 j q hq hqu hmin
    simp only [Nat.zero_add] at halloc
    have hjlen : j < s.pool.length := by
      by_contra hge
      rw [List.getElem?_eq_none (by omega)] at hq
      cases hq
    have hsetj : (s.pool.set j
        { q with tf := page, memPages := memSz, pid := s.nextpid,
                 state := Procstate.used })[j]? =
        some { q with tf := page, memPages := memSz, pid := s.nextpid,
                      state := Procstate.used } := by
      rw [List.getElem?_set_self]
      omega
    have hsetgd : (s.pool.set j
        { q with tf := page, memPages := memSz, pid := s.nextpid,
                 state := Procstate.used }).getD j default =
        { q with tf := page, memPages := memSz, pid := s.nextpid,
                 state := Procstate.used } := by
      simp [List.getD_eq_getElem?_getD, hsetj]
    have hppgd : s.pool.getD pIdx default = pp := by
      simp [List.getD_eq_getElem?_getD, hpp]
    refine Exists.intro
      ({ pool := s.pool.set j
            { state := .runnable, pid := s.nextpid, killed := q.killed,
              xstate := q.xstate, tf := { a0 := 0, rest := pp.tf.rest },
              memPages := memSz,
              openFiles := copyOpenFiles q.openFiles pp.openFiles,
              cwd := pp.cwd, name := pp.name, parent := some pIdx },
         nextpid := s.nextpid + 1,
         fileRef := cloneFiles s.fileRef pp.openFiles,
         inodeRef := fun x =>
           if x = pp.cwd then s.inodeRef x + 1 else s.inodeRef x,
         livePages := s.livePages + 1 + memSz } : PSys)
      ⟨?_, rfl, rfl,
        fun fid => cloneFiles_apply pp.openFiles s.fileRef fid,
        fun x => rfl, rfl,
        fun hclean hlen => copyOpenFiles_of_clean q.openFiles pp.openFiles
          hclean hlen⟩
    simp only [fork, procsAlloc, halloc, hsetgd, hppgd, List.set_set]
    rfl

/-- C3 witness: forking from a two-slot pool whose slot 0 is the running
parent (one open file with id 4, cwd inode 7) and slot 1 is UNUSED: the
child gets pid 5 (the counter value), `a0 = 0`, RUNNABLE state and parent
pointer 0, and the trace writes the parent pointer between wait-lock
acquire/release after the child's info lock was released. -/
theorem fork_spec_witness :
    ∃ s', fork true ⟨3, 4⟩ true 2 0
        { pool := [⟨.running, 1, false, 0, ⟨55, 66⟩, 0, [some 4, none], 7, 11, none⟩,
                   ⟨.unused, 0, false, 0, ⟨0, 0⟩, 0, [none, none], 0, 0, none⟩],
          nextpid := 5, fileRef := fun _ => 1, inodeRef := fun _ => 1,
          livePages := 3 } =
        (.ok 5, s',
         (((List.range 1).flatMap fun m => [Ev.acqInfo m, Ev.relInfo m]) ++
           [Ev.acqInfo 1]) ++
         [Ev.relInfo 1, Ev.acqWait, Ev.writeParent 1, Ev.relWait,
          Ev.acqInfo 1, Ev.setRunnable 1, Ev.relInfo 1]) ∧
      s'.pool = [⟨.running, 1, false, 0, ⟨55, 66⟩, 0, [some 4, none], 7, 11, none⟩,
                 ⟨.unused, 0, false, 0, ⟨0, 0⟩, 0, [none, none], 0, 0, none⟩].set 1
        { state := .runnable, pid := 5, killed := false, xstate := 0,
          tf := { a0 := 0,
                  rest := (⟨.running, 1, false, 0, ⟨55, 66⟩, 0, [some 4, none], 7, 11, none⟩ : Proc).tf.rest },
          memPages := 2,
          openFiles := copyOpenFiles [none, none] [some 4, none],
          cwd := 7, name := 11, parent := some 0 } ∧
      s'.nextpid = 5 + 1 ∧
      (∀ fid, s'.fileRef fid = (fun _ => 1) fid + countFile fid [some 4, none]) ∧
      (∀ x, s'.inodeRef x = if x = 7 then (fun _ => 1) x + 1 else (fun _ => 1) x) ∧
      s'.livePages = 3 + 1 + 2 ∧
      ((∀ x ∈ ([none, none] : List (Option Nat)), x = none) →
        ([none, none] : List (Option Nat)).length = [some 4, none].length →
        copyOpenFiles [none, none] [some 4, none] = [some 4, none]) :=
  (fork_spec ⟨3, 4⟩ 2 0
    { pool := [⟨.running, 1, false, 0, ⟨55, 66⟩, 0, [some 4, none], 7, 11, none⟩,
               ⟨.unused, 0, false, 0, ⟨0, 0⟩, 0, [none, none], 0, 0, none⟩],
      nextpid := 5, fileRef := fun _ => 1, inodeRef := fun _ => 1,
      livePages := 3 }
    ⟨.running, 1, false, 0, ⟨55, 66⟩, 0, [some 4, none], 7, 11, none⟩ 1
    ⟨.unused, 0, false, 0, ⟨0, 0⟩, 0, [none, none], 0, 0, none⟩).2.2.2
    rfl rfl rfl
    (by
      intro m q' hm hq'
      have hm0 : m = 0 := by omega
      subst hm0
      have hq'' :
          (⟨.running, 1, false, 0, ⟨55, 66⟩, 0, [some 4, none], 7, 11, none⟩ : Proc)
            = q' := by simpa using hq'
      rw [← hq'']
      decide)

/-- C10 witness: writing bytes 0 and 1 into the fresh pipe appends them
to the queue and keeps the invariant. -/
theorem pipe_ring_fifo_spec_witness :
    PipeInv pipeInit ∧
    ∃ p', tryWrite false (fun j => some j) pipeInit 2 =
        (.ok (min 2 (PIPESIZE - unread pipeInit)), p') ∧
      PipeInv p' ∧
      unread p' = unread pipeInit + min 2 (PIPESIZE - unread pipeInit) ∧
      queue p' = queue pipeInit ++
        (List.range (min 2 (PIPESIZE - unread pipeInit))).map (fun j => j) := by
  have h := pipe_ring_fifo_spec false (fun j => some j) (fun _ => true)
    (fun j => j) pipeInit 2
  exact ⟨h.1, h.2.2.2.2.2.2.1 h.1 rfl⟩

end Rv6
